import Mathlib

/-!
# darktable `iop/clipping.c`: rotate, flip and crop

A shallow embedding of the four pipeline callbacks of `src/iop/clipping.c`
(`commit_params`, `modify_roi_out`, `modify_roi_in`, `process`) together with
their helpers (`mul_mat_vec_2`, `get_corner`, `adjust_aabb`).

Modelling conventions.

* C `float`/`double` values are exact rationals (`ℚ`): every property below is
  a property of the arithmetic the code writes down, with rounding of the
  floating point operations left out.
* C `int` values are unbounded integers (`Int`).  The conversion of a `float`
  to an `int` (an assignment such as `roi_out->x = <float expression>` or the
  cast `(int)pi[0]`) truncates toward zero: `toInt`.
* The libm functions `cosf` and `sinf` are parameters of `modify_roi_out`.
* Pixel buffers are functions from the (integer) element index to the value.
* `for` loops are recursions on the number of remaining iterations.
-/

namespace Clipping

/-! ## Data model -/

/-- The value of `FLAG_FLIP_HORIZONTAL` in `dt_iop_clipping_flags_t`. -/
def FLAG_FLIP_HORIZONTAL : Nat := 1

/-- The value of `FLAG_FLIP_VERTICAL` in `dt_iop_clipping_flags_t`. -/
def FLAG_FLIP_VERTICAL : Nat := 2

/-- The decimal literal that `math.h` gives for `M_PI`. -/
def M_PI : ℚ := 314159265358979323846 / 100000000000000000000

/-- Region of interest, `dt_iop_roi_t`: integer offset and extent, float scale. -/
structure dt_iop_roi_t where
  x : Int
  y : Int
  width : Int
  height : Int
  scale : ℚ
deriving DecidableEq

/-- User-facing parameters, `dt_iop_clipping_params_t`. -/
structure dt_iop_clipping_params_t where
  angle : ℚ
  cx : ℚ
  cy : ℚ
  cw : ℚ
  ch : ℚ
  aspect : ℚ
deriving DecidableEq

/-- A `float[4]` holding a row-major 2x2 matrix (`rt`, `d->m`). -/
structure Mat2 where
  m0 : ℚ
  m1 : ℚ
  m2 : ℚ
  m3 : ℚ
deriving DecidableEq

/-- Committed transform state, `dt_iop_clipping_data_t`. -/
structure dt_iop_clipping_data_t where
  angle : ℚ
  aspect : ℚ
  m : Mat2
  tx : ℚ
  ty : ℚ
  cx : ℚ
  cy : ℚ
  cw : ℚ
  ch : ℚ
  cix : ℚ
  ciy : ℚ
  ciw : ℚ
  cih : ℚ
  flags : Nat
deriving DecidableEq

/-- Conversion of a `float` to an `int`: truncation toward zero. -/
def toInt (x : ℚ) : Int := if 0 ≤ x then ⌊x⌋ else ⌈x⌉

/-- A `float[4]` given by its four elements, read by index. -/
def arr4 (a0 a1 a2 a3 : ℚ) : Nat → ℚ
  | 0 => a0
  | 1 => a1
  | 2 => a2
  | _ => a3

/-! ## Helpers -/

/-- The helper `mul_mat_vec_2`: `o[0] = p[0]*m[0] + p[1]*m[1]`, `o[1] = p[0]*m[2] + p[1]*m[3]`. -/
def mul_mat_vec_2 (m : Mat2) (p : ℚ × ℚ) : ℚ × ℚ :=
  (p.1 * m.m0 + p.2 * m.m1, p.1 * m.m2 + p.2 * m.m3)

/-- The helper `get_corner`: `p[k] = aabb[2*((i>>k)&1) + k]` for `k = 0, 1`. -/
def get_corner (aabb : Nat → ℚ) (i : Nat) : ℚ × ℚ :=
  (aabb (2 * ((i >>> 0) &&& 1) + 0), aabb (2 * ((i >>> 1) &&& 1) + 1))

/-- The bounding box accumulated by `modify_roi_in`.  `none` is the initial
value `{INFINITY, INFINITY, -INFINITY, -INFINITY}`; `some (a0, a1, a2, a3)` is a
box with finite entries. -/
abbrev Aabb := Option (ℚ × ℚ × ℚ × ℚ)

/-- The helper `adjust_aabb`: `fminf` on the two lower entries, `fmaxf` on the two upper
ones.  On the initial infinite box the minimum and maximum are the point. -/
def adjust_aabb (p : ℚ × ℚ) : Aabb → Aabb
  | none => some (p.1, p.2, p.1, p.2)
  | some (a0, a1, a2, a3) => some (min a0 p.1, min a1 p.2, max a2 p.1, max a3 p.2)

/-! ## `commit_params` -/

/-- The callback `commit_params`: fills `angle`, `cx`, `cy`, `cw`, `ch`, `aspect` and `flags`
of the state `d`; the other fields of `d` are left as they are. -/
def commit_params (p : dt_iop_clipping_params_t) (d : dt_iop_clipping_data_t) :
    dt_iop_clipping_data_t :=
  { d with
    angle := M_PI / 180 * p.angle
    cx := p.cx
    cy := p.cy
    cw := |p.cw|
    ch := |p.ch|
    aspect := p.aspect
    flags := (if p.ch < 0 then FLAG_FLIP_VERTICAL else 0) |||
             (if p.cw < 0 then FLAG_FLIP_HORIZONTAL else 0) }

/-! ## `modify_roi_out` -/

/-- The rotation matrix `rt` of `modify_roi_out`: `{cos, -sin, sin, cos}` of
`d->angle`, overwritten by the identity when `d->angle == 0.0f`. -/
def rotMat (cosf sinf : ℚ → ℚ) (angle : ℚ) : Mat2 :=
  if angle = 0 then ⟨1, 0, 0, 1⟩
  else ⟨cosf angle, -sinf angle, sinf angle, cosf angle⟩

/-- One pass of the inner `k` loop of the corner loop:
`if(fabsf(o[k]) > 0.001f) cropscale = fminf(cropscale, aabb[(o[k] > 0 ? 2 : 0) + k]/o[k])`. -/
def cropStep (aabb : Nat → ℚ) (k : Nat) (ok : ℚ) (cropscale : ℚ) : ℚ :=
  if |ok| > 1 / 1000 then min cropscale (aabb ((if ok > 0 then 2 else 0) + k) / ok)
  else cropscale

/-- The body of the corner loop for corner `c`: `get_corner`, `mul_mat_vec_2`,
then the `k` loop over both coordinates. -/
def cropCorner (rt : Mat2) (aabb : Nat → ℚ) (cropscale : ℚ) (c : Nat) : ℚ :=
  let p := get_corner aabb c
  let o := mul_mat_vec_2 rt p
  cropStep aabb 1 o.2 (cropStep aabb 0 o.1 cropscale)

/-- The corner loop of `modify_roi_out`: `cropscale` starts at `1.0f` and is
lowered over the four corners of the centred box of a `w` by `h` input. -/
def cropscaleOf (rt : Mat2) (w h : Int) : ℚ :=
  let aabb := arr4 (-(1 / 2) * w) (-(1 / 2) * h) (1 / 2 * w) (1 / 2 * h)
  (List.range 4).foldl (cropCorner rt aabb) 1

/-- Aspect enforcement of `modify_roi_out`: from `acw = cw - cx`, `ach = ch - cy`
to the pair `(acw, ach)` used for the extent. -/
def aspectCrop (d : dt_iop_clipping_data_t) (w h : Int) : ℚ × ℚ :=
  let ach := d.ch - d.cy
  let acw := d.cw - d.cx
  if d.aspect > 0 then
    let ch := acw * w / d.aspect / h
    let cw := d.aspect * ach * h / w
    if acw ≥ cw then (cw, ach)
    else if ach ≥ ch then (acw, ch)
    else (acw * (ach / ch), ach)
  else (acw, ach)

/-- The callback `modify_roi_out`, the first pass: the output region for the input region
`roi_in`, and the state with `tx, ty, cix, ciy, ciw, cih, m` solved. -/
def modify_roi_out (cosf sinf : ℚ → ℚ) (d : dt_iop_clipping_data_t)
    (roi_in : dt_iop_roi_t) : dt_iop_roi_t × dt_iop_clipping_data_t :=
  let rt := rotMat cosf sinf d.angle
  let cropscale := cropscaleOf rt roi_in.width roi_in.height
  let tx : ℚ := roi_in.width * (1 / 2)
  let ty : ℚ := roi_in.height * (1 / 2)
  let a := aspectCrop d roi_in.width roi_in.height
  let acw := a.1
  let ach := a.2
  let x := toInt (tx - (1 / 2 - d.cx) * cropscale * roi_in.width)
  let y := toInt (ty - (1 / 2 - d.cy) * cropscale * roi_in.height)
  let width0 := toInt (acw * cropscale * roi_in.width)
  let height0 := toInt (ach * cropscale * roi_in.height)
  let width := if width0 < 1 then 1 else width0
  let height := if height0 < 1 then 1 else height0
  let rt1 : Mat2 := ⟨rt.m0, -rt.m1, -rt.m2, rt.m3⟩
  let mh : Mat2 :=
    if d.flags &&& FLAG_FLIP_HORIZONTAL ≠ 0 then ⟨-rt1.m0, rt1.m1, -rt1.m2, rt1.m3⟩ else rt1
  let mv : Mat2 :=
    if d.flags &&& FLAG_FLIP_VERTICAL ≠ 0 then ⟨mh.m0, -rt1.m1, mh.m2, -rt1.m3⟩ else mh
  ({ roi_in with x := x, y := y, width := width, height := height },
   { d with tx := tx, ty := ty, cix := x, ciy := y, ciw := width, cih := height, m := mv })

/-! ## `modify_roi_in` -/

/-- The body of the corner loop of `modify_roi_in`: the corner `c` of `aabb` is
moved to the rotation centre, mapped by `d->m`, moved back and added to the
accumulated box. -/
def roiInCorner (d : dt_iop_clipping_data_t) (so : ℚ) (aabb : Nat → ℚ) (aabb_in : Aabb)
    (c : Nat) : Aabb :=
  let p := get_corner aabb c
  let p1 : ℚ × ℚ := (p.1 - d.tx * so, p.2 - d.ty * so)
  let o := mul_mat_vec_2 d.m p1
  let o1 : ℚ × ℚ := (o.1 + d.tx * so, o.2 + d.ty * so)
  adjust_aabb o1 aabb_in

/-- The box `aabb_in` of `modify_roi_in` after the loop over the four corners. -/
def roiInBox (d : dt_iop_clipping_data_t) (roi_out : dt_iop_roi_t) : Aabb :=
  let so := roi_out.scale
  let aabb := arr4 (roi_out.x + d.cix * so) (roi_out.y + d.ciy * so)
    (roi_out.x + d.cix * so + roi_out.width) (roi_out.y + d.ciy * so + roi_out.height)
  (List.range 4).foldl (roiInCorner d so aabb) none

/-- The callback `modify_roi_in`, the second pass: the input region asked for to fill
`roi_out`.  The loop always runs four times, so the box is finite; the
`none` branch only keeps the function total. -/
def modify_roi_in (d : dt_iop_clipping_data_t) (roi_out : dt_iop_roi_t) : dt_iop_roi_t :=
  match roiInBox d roi_out with
  | some (a0, a1, a2, a3) =>
    { roi_out with
      x := toInt (a0 - 2)
      y := toInt (a1 - 2)
      width := toInt (a2 - a0 + 4)
      height := toInt (a3 - a1 + 4) }
  | none => roi_out

/-! ## `process` -/

/-- The point transform written three times at the head of `process`
(for `p0` and for the two `tmp` points): from the whole-buffer point `pi` of
the output to the coordinate in the delivered input tile. -/
def transformPoint (d : dt_iop_clipping_data_t) (roi_in roi_out : dt_iop_roi_t)
    (pi : ℚ × ℚ) : ℚ × ℚ :=
  let pi1 : ℚ × ℚ := (pi.1 - d.tx * roi_out.scale, pi.2 - d.ty * roi_out.scale)
  let pi2 : ℚ × ℚ := (pi1.1 / roi_out.scale, pi1.2 / roi_out.scale)
  let q := mul_mat_vec_2 d.m pi2
  let q1 : ℚ × ℚ := (q.1 * roi_in.scale, q.2 * roi_in.scale)
  let q2 : ℚ × ℚ := (q1.1 + d.tx * roi_in.scale, q1.2 + d.ty * roi_in.scale)
  (q2.1 - roi_in.x, q2.2 - roi_in.y)

/-- The start coordinate `p0` of `process` (output pixel (0,0)). -/
def procP0 (d : dt_iop_clipping_data_t) (roi_in roi_out : dt_iop_roi_t) : ℚ × ℚ :=
  transformPoint d roi_in roi_out
    (roi_out.x + roi_out.scale * d.cix, roi_out.y + roi_out.scale * d.ciy)

/-- The step `dx` of `process`: the image of the neighbour (1,0) minus `p0`. -/
def procDx (d : dt_iop_clipping_data_t) (roi_in roi_out : dt_iop_roi_t) : ℚ × ℚ :=
  let tmp := transformPoint d roi_in roi_out
    (roi_out.x + roi_out.scale * d.cix + 1, roi_out.y + roi_out.scale * d.ciy)
  let p0 := procP0 d roi_in roi_out
  (tmp.1 - p0.1, tmp.2 - p0.2)

/-- The step `dy` of `process`: the image of the neighbour (0,1) minus `p0`. -/
def procDy (d : dt_iop_clipping_data_t) (roi_in roi_out : dt_iop_roi_t) : ℚ × ℚ :=
  let tmp := transformPoint d roi_in roi_out
    (roi_out.x + roi_out.scale * d.cix, roi_out.y + roi_out.scale * d.ciy + 1)
  let p0 := procP0 d roi_in roi_out
  (tmp.1 - p0.1, tmp.2 - p0.2)

/-- The bounds test of the pixel loop on the cell `(ii, jj)`:
`ii >= 0 && jj >= 0 && ii <= roi_in->width-2 && jj <= roi_in->height-2`. -/
def inBounds (roi_in : dt_iop_roi_t) (ii jj : Int) : Prop :=
  ii ≥ 0 ∧ jj ≥ 0 ∧ ii ≤ roi_in.width - 2 ∧ jj ≤ roi_in.height - 2

instance (roi_in : dt_iop_roi_t) (ii jj : Int) : Decidable (inBounds roi_in ii jj) := by
  unfold inBounds; infer_instance

/-- The value the pixel loop stores in `out[c]` for the coordinate `pi`: the
bilinear blend of the four neighbours when the cell passes the bounds test,
`0.0f` otherwise. -/
def pixelValue (inp : Int → ℚ) (roi_in : dt_iop_roi_t) (pi : ℚ × ℚ) (c : Int) : ℚ :=
  let ii := toInt pi.1
  let jj := toInt pi.2
  if inBounds roi_in ii jj then
    let fi : ℚ := pi.1 - ii
    let fj : ℚ := pi.2 - jj
    (1 - fj) * (1 - fi) * inp (3 * (roi_in.width * jj + ii) + c) +
    (1 - fj) * fi * inp (3 * (roi_in.width * jj + (ii + 1)) + c) +
    fj * fi * inp (3 * (roi_in.width * (jj + 1) + (ii + 1)) + c) +
    fj * (1 - fi) * inp (3 * (roi_in.width * (jj + 1) + ii) + c)
  else 0

/-- The three stores `out[0]`, `out[1]`, `out[2]` of one pixel, `out` being the
element offset of the pixel in the output buffer `buf`. -/
def writePixel (buf : Int → ℚ) (out : Int) (v : Int → ℚ) : Int → ℚ :=
  Function.update (Function.update (Function.update buf (out + 0) (v 0)) (out + 1) (v 1))
    (out + 2) (v 2)

/-- The inner loop over the columns of one row, with `n` iterations left:
store the pixel at `pi`, then `pi += dx` and `out += 3`. -/
def colLoop (inp : Int → ℚ) (roi_in : dt_iop_roi_t) (dx : ℚ × ℚ) :
    Nat → ℚ × ℚ → Int → (Int → ℚ) → (Int → ℚ)
  | 0, _, _, buf => buf
  | n + 1, pi, out, buf =>
    colLoop inp roi_in dx n (pi.1 + dx.1, pi.2 + dx.2) (out + 3)
      (writePixel buf out (pixelValue inp roi_in pi))

/-- The outer loop over the rows, with `n` iterations left at row `j`:
`out = o + 3*roi_out->width*j`, `pi = p0 + j*dy`, then the column loop. -/
def rowLoop (inp : Int → ℚ) (roi_in roi_out : dt_iop_roi_t) (p0 dx dy : ℚ × ℚ) :
    Nat → Int → (Int → ℚ) → (Int → ℚ)
  | 0, _, buf => buf
  | n + 1, j, buf =>
    rowLoop inp roi_in roi_out p0 dx dy n (j + 1)
      (colLoop inp roi_in dx roi_out.width.toNat (p0.1 + j * dy.1, p0.2 + j * dy.2)
        (3 * roi_out.width * j) buf)

/-- The callback `process`, the third pass: fills the output buffer `o` for `roi_out` from the
input buffer `inp` delivered for `roi_in`. -/
def process (d : dt_iop_clipping_data_t) (inp o : Int → ℚ)
    (roi_in roi_out : dt_iop_roi_t) : Int → ℚ :=
  rowLoop inp roi_in roi_out (procP0 d roi_in roi_out) (procDx d roi_in roi_out)
    (procDy d roi_in roi_out) roi_out.height.toNat 0 o

/-- The coordinate at which `process` samples the output pixel `(i, j)`:
the row start `p0 + j*dy` advanced `i` times by `dx`. -/
def sampleCoord (d : dt_iop_clipping_data_t) (roi_in roi_out : dt_iop_roi_t)
    (i j : Int) : ℚ × ℚ :=
  let p0 := procP0 d roi_in roi_out
  let dx := procDx d roi_in roi_out
  let dy := procDy d roi_in roi_out
  (p0.1 + j * dy.1 + i * dx.1, p0.2 + j * dy.2 + i * dx.2)

/-- The state of a pipeline piece before the first `commit_params`
(`init_pipe` allocates it and commits at once, so its content is immaterial). -/
def blankData : dt_iop_clipping_data_t :=
  ⟨0, 0, ⟨0, 0, 0, 0⟩, 0, 0, 0, 0, 0, 0, 0, 0, 0, 0, 0⟩

/-! ## Geometry of the solved region -/

/-- The back-transform of `modify_roi_in` at scale 1: the point `q` is moved to
the rotation centre `(tx, ty)`, mapped by `d->m` and moved back. -/
def rotateBack (d : dt_iop_clipping_data_t) (q : ℚ × ℚ) : ℚ × ℚ :=
  let o := mul_mat_vec_2 d.m (q.1 - d.tx, q.2 - d.ty)
  (o.1 + d.tx, o.2 + d.ty)

/-- The four corners of the rectangle `[x, x + w] x [y, y + h]`. -/
def rectCorners (x y w h : ℚ) : List (ℚ × ℚ) :=
  [(x, y), (x + w, y), (x, y + h), (x + w, y + h)]

/-- The float values that `modify_roi_out` assigns to `roi_out->x`, `y`, `width`
and `height`, before their conversion to `int`. -/
def extentExact (cosf sinf : ℚ → ℚ) (d : dt_iop_clipping_data_t) (roi_in : dt_iop_roi_t) :
    ℚ × ℚ × ℚ × ℚ :=
  let rt := rotMat cosf sinf d.angle
  let cropscale := cropscaleOf rt roi_in.width roi_in.height
  let tx : ℚ := roi_in.width * (1 / 2)
  let ty : ℚ := roi_in.height * (1 / 2)
  let a := aspectCrop d roi_in.width roi_in.height
  (tx - (1 / 2 - d.cx) * cropscale * roi_in.width,
   ty - (1 / 2 - d.cy) * cropscale * roi_in.height,
   a.1 * cropscale * roi_in.width,
   a.2 * cropscale * roi_in.height)

/-! ## The pixel march of `process` -/

/-- The body of the row loop of `process` for the row `j`: the output offset
`3*roi_out->width*j`, the row start `p0 + j*dy`, then the column loop. -/
def procRow (inp : Int → ℚ) (roi_in roi_out : dt_iop_roi_t) (p0 dx dy : ℚ × ℚ) (j : Int)
    (buf : Int → ℚ) : Int → ℚ :=
  colLoop inp roi_in dx roi_out.width.toNat (p0.1 + j * dy.1, p0.2 + j * dy.2)
    (3 * roi_out.width * j) buf

/-- The row loop run over the rows in the order of the list `rows`, one
schedule of the `omp parallel for` over the rows. -/
def rowsLoop (inp : Int → ℚ) (roi_in roi_out : dt_iop_roi_t) (p0 dx dy : ℚ × ℚ) :
    List Int → (Int → ℚ) → (Int → ℚ)
  | [], buf => buf
  | j :: js, buf =>
    rowsLoop inp roi_in roi_out p0 dx dy js (procRow inp roi_in roi_out p0 dx dy j buf)

/-- The callback `process` with its rows taken in the order of the list `rows`. -/
def processIn (d : dt_iop_clipping_data_t) (inp o : Int → ℚ)
    (roi_in roi_out : dt_iop_roi_t) (rows : List Int) : Int → ℚ :=
  rowsLoop inp roi_in roi_out (procP0 d roi_in roi_out) (procDx d roi_in roi_out)
    (procDy d roi_in roi_out) rows o

/-- The value of the variable `pi` when the pixel loop reaches column `i` of the
row `j`: the row start `p0 + j*dy`, then one `pi += dx` per column passed. -/
def marchCoord (p0 dx dy : ℚ × ℚ) (j : Int) : Nat → ℚ × ℚ
  | 0 => (p0.1 + j * dy.1, p0.2 + j * dy.2)
  | i + 1 => ((marchCoord p0 dx dy j i).1 + dx.1, (marchCoord p0 dx dy j i).2 + dx.2)

/-- The direct inverse mapping of the output pixel `(i, j)`:
`m * ((roi_out.x + so*cix + i - tx*so, roi_out.y + so*ciy + j - ty*so) / so) * si
+ (tx, ty)*si - (roi_in.x, roi_in.y)` with `so = roi_out.scale`, `si = roi_in.scale`. -/
def directTransform (d : dt_iop_clipping_data_t) (roi_in roi_out : dt_iop_roi_t)
    (i j : Int) : ℚ × ℚ :=
  let so := roi_out.scale
  let si := roi_in.scale
  let q := mul_mat_vec_2 d.m
    ((roi_out.x + so * d.cix + i - d.tx * so) / so, (roi_out.y + so * d.ciy + j - d.ty * so) / so)
  (q.1 * si + d.tx * si - roi_in.x, q.2 * si + d.ty * si - roi_in.y)

/-! ## Boxes -/

/-- The centred box `aabb` of `modify_roi_out` for a `w` by `h` input:
`{-.5f*w, -.5f*h, .5f*w, .5f*h}`. -/
def centredBox (w h : Int) : Nat → ℚ :=
  arr4 (-(1 / 2) * w) (-(1 / 2) * h) (1 / 2 * w) (1 / 2 * h)

/-- The point `q` lies inside the box `aabb = {x0, y0, x1, y1}`. -/
def insideBox (aabb : Nat → ℚ) (q : ℚ × ℚ) : Prop :=
  aabb 0 ≤ q.1 ∧ q.1 ≤ aabb 2 ∧ aabb 1 ≤ q.2 ∧ q.2 ≤ aabb 3

instance (aabb : Nat → ℚ) (q : ℚ × ℚ) : Decidable (insideBox aabb q) := by
  unfold insideBox; infer_instance

/-- The per-pixel rule of the specification for the coordinate `pi`: with
`(ii, jj) = floor(pi)` and the fractional parts `(fi, fj)`, the bilinear blend
of the four neighbours when `[ii, ii+1] x [jj, jj+1]` lies inside the delivered
tile, and 0 otherwise. -/
def resampleRule (inp : Int → ℚ) (roi_in : dt_iop_roi_t) (pi : ℚ × ℚ) (c : Int) : ℚ :=
  let ii : Int := ⌊pi.1⌋
  let jj : Int := ⌊pi.2⌋
  let fi : ℚ := pi.1 - ii
  let fj : ℚ := pi.2 - jj
  if 0 ≤ ii ∧ ii + 1 ≤ roi_in.width - 1 ∧ 0 ≤ jj ∧ jj + 1 ≤ roi_in.height - 1 then
    (1 - fi) * (1 - fj) * inp (3 * (roi_in.width * jj + ii) + c) +
    fi * (1 - fj) * inp (3 * (roi_in.width * jj + (ii + 1)) + c) +
    fi * fj * inp (3 * (roi_in.width * (jj + 1) + (ii + 1)) + c) +
    (1 - fi) * fj * inp (3 * (roi_in.width * (jj + 1) + ii) + c)
  else 0

/-! ## The forward pass in binary32

The definitions above read the float expressions of the code as exact
rationals.  The integers returned by `modify_roi_out` and the branch taken by
its aspect enforcement depend on the rounding of the single operations, so the
forward pass is given a second time with every float operation rounded to
binary32 (round to nearest, ties to even, each operation on its own, no fused
multiply-add).  Overflow to infinity and NaN are left out: the rounding is
defined on all rationals with an unbounded exponent above. -/

/-- The power `2^e` for an integer exponent. -/
def pow2 (e : Int) : ℚ :=
  if 0 ≤ e then ((2 ^ e.toNat : Nat) : ℚ) else 1 / ((2 ^ (-e).toNat : Nat) : ℚ)

/-- Halving `n` until it is below 2, at most `fuel` times, counting the steps. -/
def log2Fuel : Nat → Nat → Nat
  | 0, _ => 0
  | fuel + 1, n => if 2 ≤ n then log2Fuel fuel (n / 2) + 1 else 0

/-- The exponent `floor(log2 n)` of a natural number, `0` for `n < 2`. -/
def log2Nat (n : Nat) : Nat := log2Fuel n n

/-- The exponent `floor(log2 x)` of a positive rational. -/
def ilog2 (x : ℚ) : Int :=
  let e0 : Int := (log2Nat x.num.natAbs : Int) - (log2Nat x.den : Int)
  if x < pow2 e0 then e0 - 1 else e0

/-- Rounding of a rational to the nearest integer, ties to the even one. -/
def roundEven (r : ℚ) : Int :=
  let f : Int := ⌊r⌋
  if r - f < 1 / 2 then f
  else if r - f > 1 / 2 then f + 1
  else if f % 2 = 0 then f else f + 1

/-- Rounding to a binary format with `p` significand bits and least normal
exponent `emin` (subnormals included): the nearest multiple of
`2^(e - (p - 1))`, `e = max (floor(log2 |x|)) emin`, ties to even. -/
def roundBinary (p : Nat) (emin : Int) (x : ℚ) : ℚ :=
  if x = 0 then 0
  else
    let e := max (ilog2 |x|) emin
    let q := pow2 (e - ((p : Int) - 1))
    (roundEven (x / q) : ℚ) * q

/-- Rounding to binary32, the C type `float`. -/
def f32 (x : ℚ) : ℚ := roundBinary 24 (-126) x

/-- Rounding to binary64, the C type `double`. -/
def f64 (x : ℚ) : ℚ := roundBinary 53 (-1022) x

/-- The float sum `a + b`. -/
def fadd (a b : ℚ) : ℚ := f32 (a + b)

/-- The float difference `a - b`. -/
def fsub (a b : ℚ) : ℚ := f32 (a - b)

/-- The float product `a * b`. -/
def fmul (a b : ℚ) : ℚ := f32 (a * b)

/-- The float quotient `a / b`. -/
def fdiv (a b : ℚ) : ℚ := f32 (a / b)

/-- The callback `commit_params` in binary32: `M_PI/180.0 * p->angle` is
computed in `double` and stored in a `float`; the other fields are copied,
`fabsf` is exact. -/
def commit_paramsF (p : dt_iop_clipping_params_t) (d : dt_iop_clipping_data_t) :
    dt_iop_clipping_data_t :=
  { d with
    angle := f32 (f64 (f64 (f64 M_PI / 180) * p.angle))
    cx := p.cx
    cy := p.cy
    cw := |p.cw|
    ch := |p.ch|
    aspect := p.aspect
    flags := (if p.ch < 0 then FLAG_FLIP_VERTICAL else 0) |||
             (if p.cw < 0 then FLAG_FLIP_HORIZONTAL else 0) }

/-- The helper `mul_mat_vec_2` in binary32: two products and one sum per
component. -/
def mul_mat_vec_2F (m : Mat2) (p : ℚ × ℚ) : ℚ × ℚ :=
  (fadd (fmul p.1 m.m0) (fmul p.2 m.m1), fadd (fmul p.1 m.m2) (fmul p.2 m.m3))

/-- One pass of the inner `k` loop of the corner loop in binary32; the
threshold is the float constant `0.001f`. -/
def cropStepF (aabb : Nat → ℚ) (k : Nat) (ok : ℚ) (cropscale : ℚ) : ℚ :=
  if |ok| > f32 (1 / 1000) then
    min cropscale (fdiv (aabb ((if ok > 0 then 2 else 0) + k)) ok)
  else cropscale

/-- The body of the corner loop for corner `c` in binary32. -/
def cropCornerF (rt : Mat2) (aabb : Nat → ℚ) (cropscale : ℚ) (c : Nat) : ℚ :=
  let p := get_corner aabb c
  let o := mul_mat_vec_2F rt p
  cropStepF aabb 1 o.2 (cropStepF aabb 0 o.1 cropscale)

/-- The corner loop of `modify_roi_out` in binary32, on the box
`{-.5f*w, -.5f*h, .5f*w, .5f*h}` with `w` and `h` converted to `float`. -/
def cropscaleOfF (rt : Mat2) (w h : Int) : ℚ :=
  let aabb := arr4 (fmul (-(1 / 2)) (f32 w)) (fmul (-(1 / 2)) (f32 h))
    (fmul (1 / 2) (f32 w)) (fmul (1 / 2) (f32 h))
  (List.range 4).foldl (cropCornerF rt aabb) 1

/-- The number of the branch that the aspect enforcement of `modify_roi_out`
takes in binary32: 1 for `acw = cw`, 2 for `ach = ch`, 3 for `acw *= ach/ch`,
0 when `aspect > 0.0` fails. -/
def aspectBranchF (d : dt_iop_clipping_data_t) (w h : Int) : Nat :=
  let ach := fsub d.ch d.cy
  let acw := fsub d.cw d.cx
  if d.aspect > 0 then
    let ch := fdiv (fdiv (fmul acw (f32 w)) d.aspect) (f32 h)
    let cw := fdiv (fmul (fmul d.aspect ach) (f32 h)) (f32 w)
    if acw ≥ cw then 1
    else if ach ≥ ch then 2
    else 3
  else 0

/-- Aspect enforcement of `modify_roi_out` in binary32:
`ch = acw * width / aspect / height` and `cw = aspect * ach * height / width`
are evaluated from left to right, each operation rounded. -/
def aspectCropF (d : dt_iop_clipping_data_t) (w h : Int) : ℚ × ℚ :=
  let ach := fsub d.ch d.cy
  let acw := fsub d.cw d.cx
  if d.aspect > 0 then
    let ch := fdiv (fdiv (fmul acw (f32 w)) d.aspect) (f32 h)
    let cw := fdiv (fmul (fmul d.aspect ach) (f32 h)) (f32 w)
    if acw ≥ cw then (cw, ach)
    else if ach ≥ ch then (acw, ch)
    else (fmul acw (fdiv ach ch), ach)
  else (acw, ach)

/-- The body of `modify_roi_out` in binary32 after the rotation matrix `rt` of
its first lines has been built: corner loop, rotation centre, aspect
enforcement, output region with its conversions to `int`, stored crop window
(converted back to `float`) and final matrix. -/
def solveF (rt : Mat2) (d : dt_iop_clipping_data_t) (roi_in : dt_iop_roi_t) :
    dt_iop_roi_t × dt_iop_clipping_data_t :=
  let cropscale := cropscaleOfF rt roi_in.width roi_in.height
  let tx : ℚ := fmul (f32 roi_in.width) (1 / 2)
  let ty : ℚ := fmul (f32 roi_in.height) (1 / 2)
  let a := aspectCropF d roi_in.width roi_in.height
  let acw := a.1
  let ach := a.2
  let x := toInt (fsub tx (fmul (fmul (fsub (1 / 2) d.cx) cropscale) (f32 roi_in.width)))
  let y := toInt (fsub ty (fmul (fmul (fsub (1 / 2) d.cy) cropscale) (f32 roi_in.height)))
  let width0 := toInt (fmul (fmul acw cropscale) (f32 roi_in.width))
  let height0 := toInt (fmul (fmul ach cropscale) (f32 roi_in.height))
  let width := if width0 < 1 then 1 else width0
  let height := if height0 < 1 then 1 else height0
  let rt1 : Mat2 := ⟨rt.m0, -rt.m1, -rt.m2, rt.m3⟩
  let mh : Mat2 :=
    if d.flags &&& FLAG_FLIP_HORIZONTAL ≠ 0 then ⟨-rt1.m0, rt1.m1, -rt1.m2, rt1.m3⟩ else rt1
  let mv : Mat2 :=
    if d.flags &&& FLAG_FLIP_VERTICAL ≠ 0 then ⟨mh.m0, -rt1.m1, mh.m2, -rt1.m3⟩ else mh
  ({ roi_in with x := x, y := y, width := width, height := height },
   { d with tx := tx, ty := ty, cix := f32 x, ciy := f32 y, ciw := f32 width,
            cih := f32 height, m := mv })

/-- The callback `modify_roi_out` in binary32; `cosf` and `sinf` return floats. -/
def modify_roi_outF (cosf sinf : ℚ → ℚ) (d : dt_iop_clipping_data_t)
    (roi_in : dt_iop_roi_t) : dt_iop_roi_t × dt_iop_clipping_data_t :=
  solveF (rotMat cosf sinf d.angle) d roi_in

/-! ## Concrete inputs used below -/

/-- The full region of a 4 x 4 image at scale 1. -/
def fullRoi4 : dt_iop_roi_t := ⟨0, 0, 4, 4, 1⟩

/-- The default parameters set by `init`: `{0.0, 0.0, 0.0, 1.0, 1.0, -1.0}`. -/
def init_params : dt_iop_clipping_params_t := ⟨0, 0, 0, 1, 1, -1⟩

/-- The state solved by `modify_roi_out` from the default parameters on the full
4 x 4 image: no rotation, full crop, no flip. -/
def identityState4 : dt_iop_clipping_data_t :=
  (modify_roi_out (fun _ => 1) (fun _ => 0) (commit_params init_params blankData) fullRoi4).2

/-- The parameters of the crop scenario: angle 0, crop `[0.25,0.25,0.75,0.75]`,
aspect -1. -/
def scenario_params : dt_iop_clipping_params_t := ⟨0, 1 / 4, 1 / 4, 3 / 4, 3 / 4, -1⟩

/-- The value of `cosf` at the 3-4-5 angle (53.13 degrees). -/
def cos345 : ℚ → ℚ := fun _ => 3 / 5

/-- The value of `sinf` at the 3-4-5 angle (53.13 degrees). -/
def sin345 : ℚ → ℚ := fun _ => 4 / 5

/-- Parameters of a rotation by 53.13 degrees with the full crop box, no flip
and no aspect constraint. -/
def rot345_params : dt_iop_clipping_params_t := ⟨5313 / 100, 0, 0, 1, 1, -1⟩

/-- The full region of an 8 x 8 image at scale 1. -/
def fullRoi8 : dt_iop_roi_t := ⟨0, 0, 8, 8, 1⟩

/-- The value of `cosf` at the 5-12-13 angle (67.38 degrees). -/
def cos51213 : ℚ → ℚ := fun _ => 5 / 13

/-- The value of `sinf` at the 5-12-13 angle (67.38 degrees). -/
def sin51213 : ℚ → ℚ := fun _ => 12 / 13

/-- Parameters of a rotation by 67.38 degrees with the full crop box, no flip
and no aspect constraint. -/
def rot51213_params : dt_iop_clipping_params_t := ⟨6738 / 100, 0, 0, 1, 1, -1⟩

/-- The state solved by `modify_roi_out` for the rotation by 67.38 degrees of the
full 8 x 8 image. -/
def rot51213_state : dt_iop_clipping_data_t :=
  (modify_roi_out cos51213 sin51213 (commit_params rot51213_params blankData) fullRoi8).2

/-- A requested output region of 1 x 2 pixels at offset (2, 4), scale 1. -/
def tileRoi : dt_iop_roi_t := ⟨2, 4, 1, 2, 1⟩

/-- The state solved by `modify_roi_out` for the rotation by 53.13 degrees of the
full 8 x 8 image; its output extent is 5 x 5. -/
def rot345_state : dt_iop_clipping_data_t :=
  (modify_roi_out cos345 sin345 (commit_params rot345_params blankData) fullRoi8).2

/-- The whole 5 x 5 output extent of `rot345_state`, requested at scale 1. -/
def cropRoi5 : dt_iop_roi_t := ⟨0, 0, 5, 5, 1⟩

/-- Parameters with the crop box `[0.2, 0.2, 0.8, 0.8]` as floats, angle 0 and
aspect -1. -/
def crop28_params : dt_iop_clipping_params_t :=
  ⟨0, f32 (1 / 5), f32 (1 / 5), f32 (4 / 5), f32 (4 / 5), -1⟩

/-- Parameters with the full crop box, angle 0 and the forced aspect 2.375. -/
def aspect2375_params : dt_iop_clipping_params_t := ⟨0, 0, 0, 1, 1, 19 / 8⟩

/-- Parameters with the crop box `[0.19, 0.21, 0.54, 0.51]` as floats, angle 0
and the forced aspect 1.75. -/
def aspect175_params : dt_iop_clipping_params_t :=
  ⟨0, f32 (19 / 100), f32 (21 / 100), f32 (27 / 50), f32 (51 / 100), 7 / 4⟩

/-! ## The loops of `process` -/

theorem writePixel_of_lt (buf : Int → ℚ) (out : Int) (v : Int → ℚ) (idx : Int)
    (h : idx < out) : writePixel buf out v idx = buf idx := by
  unfold writePixel
  rw [Function.update_noteq (by omega), Function.update_noteq (by omega),
    Function.update_noteq (by omega)]

theorem writePixel_at (buf : Int → ℚ) (out : Int) (v : Int → ℚ) (c : Int)
    (h0 : 0 ≤ c) (h3 : c < 3) : writePixel buf out v (out + c) = v c := by
  unfold writePixel
  have hc : c = 0 ∨ c = 1 ∨ c = 2 := by omega
  rcases hc with rfl | rfl | rfl
  · rw [Function.update_noteq (by omega), Function.update_noteq (by omega),
      Function.update_same]
  · rw [Function.update_noteq (by omega), Function.update_same]
  · rw [Function.update_same]

theorem colLoop_frame (inp : Int → ℚ) (roi_in : dt_iop_roi_t) (dx : ℚ × ℚ) :
    ∀ (n : Nat) (pi : ℚ × ℚ) (out : Int) (buf : Int → ℚ) (idx : Int), idx < out →
      colLoop inp roi_in dx n pi out buf idx = buf idx := by
  intro n
  induction n with
  | zero => intro pi out buf idx _; rfl
  | succ n ih =>
    intro pi out buf idx h
    rw [colLoop, ih _ _ _ _ (by omega), writePixel_of_lt _ _ _ _ h]

theorem colLoop_val (inp : Int → ℚ) (roi_in : dt_iop_roi_t) (dx : ℚ × ℚ) :
    ∀ (n : Nat) (pi : ℚ × ℚ) (out : Int) (buf : Int → ℚ) (i : Nat) (c : Int),
      i < n → 0 ≤ c → c < 3 →
      colLoop inp roi_in dx n pi out buf (out + 3 * i + c) =
        pixelValue inp roi_in (pi.1 + i * dx.1, pi.2 + i * dx.2) c := by
  intro n
  induction n with
  | zero => intro pi out buf i c h; omega
  | succ n ih =>
    intro pi out buf i c hi h0 h3
    rw [colLoop]
    cases i with
    | zero =>
      rw [colLoop_frame _ _ _ _ _ _ _ _ (by push_cast; omega)]
      have e : out + 3 * ((0 : Nat) : Int) + c = out + c := by push_cast; ring
      rw [e, writePixel_at _ _ _ _ h0 h3]
      simp
    | succ k =>
      have e : out + 3 * ((k + 1 : Nat) : Int) + c = (out + 3) + 3 * (k : Int) + c := by
        push_cast; ring
      rw [e, ih _ _ _ k c (by omega) h0 h3]
      congr 1
      ext <;> (push_cast; ring)

theorem rowLoop_frame (inp : Int → ℚ) (roi_in roi_out : dt_iop_roi_t) (p0 dx dy : ℚ × ℚ)
    (hw : 0 ≤ roi_out.width) :
    ∀ (n : Nat) (j : Int) (buf : Int → ℚ) (idx : Int), 0 ≤ j →
      idx < 3 * roi_out.width * j →
      rowLoop inp roi_in roi_out p0 dx dy n j buf idx = buf idx := by
  intro n
  induction n with
  | zero => intro j buf idx _ _; rfl
  | succ n ih =>
    intro j buf idx hj h
    rw [rowLoop, ih _ _ _ (by omega) (by nlinarith), colLoop_frame _ _ _ _ _ _ _ _ h]

theorem rowLoop_val (inp : Int → ℚ) (roi_in roi_out : dt_iop_roi_t) (p0 dx dy : ℚ × ℚ) :
    ∀ (n : Nat) (j : Int) (buf : Int → ℚ) (a i : Nat) (c : Int), 0 ≤ j →
      a < n → i < roi_out.width.toNat → 0 ≤ c → c < 3 →
      rowLoop inp roi_in roi_out p0 dx dy n j buf (3 * roi_out.width * (j + a) + 3 * i + c) =
        pixelValue inp roi_in
          (p0.1 + (j + a) * dy.1 + i * dx.1, p0.2 + (j + a) * dy.2 + i * dx.2) c := by
  intro n
  induction n with
  | zero => intro j buf a i c _ h; omega
  | succ n ih =>
    intro j buf a i c hj ha hi h0 h3
    have hw : 0 ≤ roi_out.width := by omega
    have hiw : (i : Int) + 1 ≤ roi_out.width := by omega
    rw [rowLoop]
    cases a with
    | zero =>
      rw [rowLoop_frame _ _ _ _ _ _ hw _ _ _ _ (by omega) (by push_cast; nlinarith)]
      have e : 3 * roi_out.width * (j + ((0 : Nat) : Int)) + 3 * (i : Int) + c =
          3 * roi_out.width * j + 3 * i + c := by push_cast; ring
      rw [e, colLoop_val _ _ _ _ _ _ _ i c hi h0 h3]
      congr 1
      ext <;> (push_cast; ring)
    | succ b =>
      have e : 3 * roi_out.width * (j + ((b + 1 : Nat) : Int)) + 3 * (i : Int) + c =
          3 * roi_out.width * ((j + 1) + b) + 3 * i + c := by push_cast; ring
      rw [e, ih _ _ b i c (by omega) (by omega) hi h0 h3]
      congr 1
      ext <;> (push_cast; ring)

/-- Every pixel `(i, j)` of the output region is stored once, at element
`3*(width*j + i) + c`, with the value sampled at `p0 + j*dy + i*dx`. -/
theorem process_pixel (d : dt_iop_clipping_data_t) (inp o : Int → ℚ)
    (roi_in roi_out : dt_iop_roi_t) (i j c : Int)
    (hi0 : 0 ≤ i) (hi : i < roi_out.width) (hj0 : 0 ≤ j) (hj : j < roi_out.height)
    (hc0 : 0 ≤ c) (hc : c < 3) :
    process d inp o roi_in roi_out (3 * (roi_out.width * j + i) + c) =
      pixelValue inp roi_in (sampleCoord d roi_in roi_out i j) c := by
  obtain ⟨a, rfl⟩ := Int.eq_ofNat_of_zero_le hj0
  obtain ⟨b, rfl⟩ := Int.eq_ofNat_of_zero_le hi0
  have e : 3 * (roi_out.width * (a : Int) + (b : Int)) + c =
      3 * roi_out.width * (0 + (a : Int)) + 3 * (b : Int) + c := by ring
  unfold process
  rw [e, rowLoop_val _ _ _ _ _ _ _ 0 _ a b c le_rfl (by omega) (by omega) hc0 hc]
  unfold sampleCoord
  congr 1
  ext <;> (push_cast; ring)

theorem pixelValue_integer (inp : Int → ℚ) (roi_in : dt_iop_roi_t) (pi : ℚ × ℚ) (c : Int)
    (hb : inBounds roi_in (toInt pi.1) (toInt pi.2))
    (hfi : pi.1 - (toInt pi.1 : ℚ) = 0) (hfj : pi.2 - (toInt pi.2 : ℚ) = 0) :
    pixelValue inp roi_in pi c = inp (3 * (roi_in.width * toInt pi.2 + toInt pi.1) + c) := by
  unfold pixelValue
  simp only [if_pos hb, hfi, hfj]
  ring

/-- C8: an output pixel of `process` whose sampling coordinate has zero
fractional parts (`fi = fj = 0`) and whose cell `(ii, jj)` passes the bounds
test holds, in each of its three channels, exactly the input value at column
`ii`, row `jj`. -/
theorem process_exact_at_integer_coordinates (d : dt_iop_clipping_data_t) (inp o : Int → ℚ)
    (roi_in roi_out : dt_iop_roi_t) (i j c : Int)
    (hi0 : 0 ≤ i) (hi : i < roi_out.width) (hj0 : 0 ≤ j) (hj : j < roi_out.height)
    (hc0 : 0 ≤ c) (hc : c < 3)
    (hb : inBounds roi_in (toInt (sampleCoord d roi_in roi_out i j).1)
      (toInt (sampleCoord d roi_in roi_out i j).2))
    (hfi : (sampleCoord d roi_in roi_out i j).1 -
      (toInt (sampleCoord d roi_in roi_out i j).1 : ℚ) = 0)
    (hfj : (sampleCoord d roi_in roi_out i j).2 -
      (toInt (sampleCoord d roi_in roi_out i j).2 : ℚ) = 0) :
    process d inp o roi_in roi_out (3 * (roi_out.width * j + i) + c) =
      inp (3 * (roi_in.width * toInt (sampleCoord d roi_in roi_out i j).2 +
        toInt (sampleCoord d roi_in roi_out i j).1) + c) := by
  rw [process_pixel d inp o roi_in roi_out i j c hi0 hi hj0 hj hc0 hc]
  exact pixelValue_integer inp roi_in _ c hb hfi hfj

/-- C8, witness: the identity state on a 4 x 4 image whose element `n` holds
the value `n`; the output pixel (1, 2) samples the integer coordinate (1, 2). -/
theorem process_exact_at_integer_coordinates_witness :
    inBounds fullRoi4 (toInt (sampleCoord identityState4 fullRoi4 fullRoi4 1 2).1)
      (toInt (sampleCoord identityState4 fullRoi4 fullRoi4 1 2).2) ∧
    process identityState4 (fun n => n) (fun _ => 0) fullRoi4 fullRoi4
        (3 * (fullRoi4.width * 2 + 1) + 0) =
      (fun n : Int => (n : ℚ))
        (3 * (fullRoi4.width * toInt (sampleCoord identityState4 fullRoi4 fullRoi4 1 2).2 +
          toInt (sampleCoord identityState4 fullRoi4 fullRoi4 1 2).1) + 0) :=
  ⟨by decide!,
   process_exact_at_integer_coordinates identityState4 (fun n => n) (fun _ => 0)
    fullRoi4 fullRoi4 1 2 0
    (by decide) (by decide) (by decide) (by decide) (by decide) (by decide)
    (by decide!) (by decide!) (by decide!)⟩

/-- C10: `commit_params` is total and leaves the state with
`angle = p.angle * M_PI / 180`, `cx = p.cx`, `cy = p.cy`, `cw = |p.cw|`,
`ch = |p.ch|`, `aspect = p.aspect`, and flags that hold `FLAG_FLIP_HORIZONTAL`
exactly when `p.cw < 0`, `FLAG_FLIP_VERTICAL` exactly when `p.ch < 0`, and no
other bit. -/
theorem commit_params_fields (p : dt_iop_clipping_params_t) (d : dt_iop_clipping_data_t) :
    (commit_params p d).angle = p.angle * M_PI / 180 ∧
    (commit_params p d).cx = p.cx ∧ (commit_params p d).cy = p.cy ∧
    (commit_params p d).cw = |p.cw| ∧ (commit_params p d).ch = |p.ch| ∧
    (commit_params p d).aspect = p.aspect ∧
    ((commit_params p d).flags &&& FLAG_FLIP_HORIZONTAL ≠ 0 ↔ p.cw < 0) ∧
    ((commit_params p d).flags &&& FLAG_FLIP_VERTICAL ≠ 0 ↔ p.ch < 0) ∧
    (commit_params p d).flags &&& (FLAG_FLIP_HORIZONTAL ||| FLAG_FLIP_VERTICAL) =
      (commit_params p d).flags := by
  refine ⟨by simp only [commit_params]; ring, rfl, rfl, rfl, rfl, rfl, ?_, ?_, ?_⟩
  · by_cases hw : p.cw < 0 <;> by_cases hh : p.ch < 0 <;>
      simp [commit_params, hw, hh, FLAG_FLIP_HORIZONTAL, FLAG_FLIP_VERTICAL]
  · by_cases hw : p.cw < 0 <;> by_cases hh : p.ch < 0 <;>
      simp [commit_params, hw, hh, FLAG_FLIP_HORIZONTAL, FLAG_FLIP_VERTICAL]
  · by_cases hw : p.cw < 0 <;> by_cases hh : p.ch < 0 <;>
      simp only [commit_params, hw, hh, if_true, if_false, FLAG_FLIP_HORIZONTAL,
        FLAG_FLIP_VERTICAL] <;> decide

/-! ## `cropscale` without rotation -/

theorem cropStep_self_lo (aabb : Nat → ℚ) (k : Nat) (cs : ℚ) (h : aabb k < 0) (hcs : cs ≤ 1) :
    cropStep aabb k (aabb k) cs = cs := by
  unfold cropStep
  by_cases h1 : |aabb k| > 1 / 1000
  · rw [if_pos h1, if_neg (not_lt.mpr (le_of_lt h)), zero_add, div_self (ne_of_lt h)]
    exact min_eq_left hcs
  · rw [if_neg h1]

theorem cropStep_self_hi (aabb : Nat → ℚ) (k : Nat) (cs : ℚ) (h : 0 < aabb (2 + k))
    (hcs : cs ≤ 1) : cropStep aabb k (aabb (2 + k)) cs = cs := by
  unfold cropStep
  by_cases h1 : |aabb (2 + k)| > 1 / 1000
  · rw [if_pos h1, if_pos h, div_self (ne_of_gt h)]
    exact min_eq_left hcs
  · rw [if_neg h1]

theorem get_corner_0 (aabb : Nat → ℚ) : get_corner aabb 0 = (aabb 0, aabb 1) := rfl

theorem get_corner_1 (aabb : Nat → ℚ) : get_corner aabb 1 = (aabb 2, aabb 1) := rfl

theorem get_corner_2 (aabb : Nat → ℚ) : get_corner aabb 2 = (aabb 0, aabb 3) := rfl

theorem get_corner_3 (aabb : Nat → ℚ) : get_corner aabb 3 = (aabb 2, aabb 3) := rfl

theorem cropscaleOf_identity (w h : Int) (hw : 0 < w) (hh : 0 < h) :
    cropscaleOf ⟨1, 0, 0, 1⟩ w h = 1 := by
  have hw' : (0 : ℚ) < w := by exact_mod_cast hw
  have hh' : (0 : ℚ) < h := by exact_mod_cast hh
  set aabb := arr4 (-(1 / 2) * w) (-(1 / 2) * h) (1 / 2 * w) (1 / 2 * h) with haabb
  have a0 : aabb 0 < 0 := by simp only [haabb, arr4]; linarith
  have a1 : aabb 1 < 0 := by simp only [haabb, arr4]; linarith
  have a2 : 0 < aabb (2 + 0) := by simp only [haabb, arr4]; linarith
  have a3 : 0 < aabb (2 + 1) := by simp only [haabb, arr4]; linarith
  have c0 : cropCorner ⟨1, 0, 0, 1⟩ aabb 1 0 = 1 := by
    simp only [cropCorner, get_corner_0, mul_mat_vec_2]
    norm_num
    rw [cropStep_self_lo aabb 0 1 a0 le_rfl, cropStep_self_lo aabb 1 1 a1 le_rfl]
  have c1 : cropCorner ⟨1, 0, 0, 1⟩ aabb 1 1 = 1 := by
    simp only [cropCorner, get_corner_1, mul_mat_vec_2]
    norm_num
    rw [cropStep_self_hi aabb 0 1 a2 le_rfl, cropStep_self_lo aabb 1 1 a1 le_rfl]
  have c2 : cropCorner ⟨1, 0, 0, 1⟩ aabb 1 2 = 1 := by
    simp only [cropCorner, get_corner_2, mul_mat_vec_2]
    norm_num
    rw [cropStep_self_lo aabb 0 1 a0 le_rfl, cropStep_self_hi aabb 1 1 a3 le_rfl]
  have c3 : cropCorner ⟨1, 0, 0, 1⟩ aabb 1 3 = 1 := by
    simp only [cropCorner, get_corner_3, mul_mat_vec_2]
    norm_num
    rw [cropStep_self_hi aabb 0 1 a2 le_rfl, cropStep_self_hi aabb 1 1 a3 le_rfl]
  show List.foldl (cropCorner ⟨1, 0, 0, 1⟩ aabb) 1 (List.range 4) = 1
  have r4 : List.range 4 = [0, 1, 2, 3] := by decide
  rw [r4]
  simp only [List.foldl, c0, c1, c2, c3]

/-! ## The forward pass -/

theorem toInt_intCast (n : Int) : toInt (n : ℚ) = n := by
  unfold toInt
  split_ifs <;> simp

theorem rotMat_zero (cosf sinf : ℚ → ℚ) : rotMat cosf sinf 0 = ⟨1, 0, 0, 1⟩ := by
  simp [rotMat]

theorem aspectCrop_unconstrained (d : dt_iop_clipping_data_t) (w h : Int)
    (ha : d.aspect ≤ 0) : aspectCrop d w h = (d.cw - d.cx, d.ch - d.cy) := by
  unfold aspectCrop
  simp only [gt_iff_lt, if_neg (not_lt.mpr ha)]

/-- C2, counterexample: the identity state on the input region of a 4 x 4 image
placed at offset (5, 0) gives an output region at offset (0, 0). -/
theorem modify_roi_out_identity_counterexample :
    (0 : Int) < (dt_iop_roi_t.mk 5 0 4 4 1).width ∧
    (0 : Int) < (dt_iop_roi_t.mk 5 0 4 4 1).height ∧
    (modify_roi_out (fun _ => 1) (fun _ => 0)
      (commit_params ⟨0, 0, 0, 1, 1, -1⟩ blankData) ⟨5, 0, 4, 4, 1⟩).1 ≠ ⟨5, 0, 4, 4, 1⟩ ∧
    (modify_roi_out (fun _ => 1) (fun _ => 0)
      (commit_params ⟨0, 0, 0, 1, 1, -1⟩ blankData) ⟨5, 0, 4, 4, 1⟩).1 = ⟨0, 0, 4, 4, 1⟩ := by
  decide!

/-- Without rotation, with the full crop box and no aspect constraint the
output region is the input region moved to the origin. -/
theorem modify_roi_out_roi_identity (cosf sinf : ℚ → ℚ) (d : dt_iop_clipping_data_t)
    (roi_in : dt_iop_roi_t) (hw : 0 < roi_in.width) (hh : 0 < roi_in.height)
    (hangle : d.angle = 0) (hcx : d.cx = 0) (hcy : d.cy = 0) (hcw : d.cw = 1)
    (hch : d.ch = 1) (ha : d.aspect ≤ 0) :
    (modify_roi_out cosf sinf d roi_in).1 = { roi_in with x := 0, y := 0 } := by
  unfold modify_roi_out
  simp only [hangle, rotMat_zero, cropscaleOf_identity _ _ hw hh,
    aspectCrop_unconstrained d _ _ ha, hcx, hcy, hcw, hch]
  have e1 : (roi_in.width : ℚ) * (1 / 2) - (1 / 2 - 0) * 1 * roi_in.width = ((0 : Int) : ℚ) := by
    push_cast; ring
  have e2 : (roi_in.height : ℚ) * (1 / 2) - (1 / 2 - 0) * 1 * roi_in.height = ((0 : Int) : ℚ) := by
    push_cast; ring
  have e3 : ((1 : ℚ) - 0) * 1 * roi_in.width = (roi_in.width : ℚ) := by ring
  have e4 : ((1 : ℚ) - 0) * 1 * roi_in.height = (roi_in.height : ℚ) := by ring
  rw [e1, e2, e3, e4]
  simp only [toInt_intCast]
  rw [if_neg (by omega), if_neg (by omega)]

/-- The scenario of the specification: a 100 x 100 input, angle 0, crop
`[0.25,0.25,0.75,0.75]`, aspect -1 gives the region 50 x 50 at (25, 25). -/
theorem modify_roi_out_roi_scenario (cosf sinf : ℚ → ℚ) (d : dt_iop_clipping_data_t) :
    (modify_roi_out cosf sinf (commit_params ⟨0, 1 / 4, 1 / 4, 3 / 4, 3 / 4, -1⟩ d)
      ⟨0, 0, 100, 100, 1⟩).1 = ⟨25, 25, 50, 50, 1⟩ := by
  have t25 : toInt 25 = 25 := by decide!
  have t50 : toInt 50 = 50 := by decide!
  have ha : (commit_params ⟨0, 1 / 4, 1 / 4, 3 / 4, 3 / 4, -1⟩ d).aspect ≤ 0 := by
    simp [commit_params]
  have hangle : (commit_params ⟨0, 1 / 4, 1 / 4, 3 / 4, 3 / 4, -1⟩ d).angle = 0 := by
    simp [commit_params]
  unfold modify_roi_out
  simp only [hangle, rotMat_zero, cropscaleOf_identity 100 100 (by decide) (by decide),
    aspectCrop_unconstrained _ _ _ ha]
  have habs : |(3 / 4 : ℚ)| = 3 / 4 := abs_of_pos (by norm_num)
  norm_num [commit_params, habs, t25, t50]

/-- C2, amended: with `angle = 0`, crop box `[0,0,1,1]`, no flip flag and
`aspect <= 0`, `modify_roi_out` on an input region of positive width and height
returns that region moved to the origin (`x = y = 0`, same width, height and
scale); it equals `roi_in` in every field when `roi_in` starts at the origin. -/
theorem modify_roi_out_identity (cosf sinf : ℚ → ℚ) (d : dt_iop_clipping_data_t)
    (roi_in : dt_iop_roi_t) (hw : 0 < roi_in.width) (hh : 0 < roi_in.height)
    (hangle : d.angle = 0) (hcx : d.cx = 0) (hcy : d.cy = 0) (hcw : d.cw = 1)
    (hch : d.ch = 1) (ha : d.aspect ≤ 0) :
    (modify_roi_out cosf sinf d roi_in).1 = { roi_in with x := 0, y := 0 } ∧
    (roi_in.x = 0 → roi_in.y = 0 → (modify_roi_out cosf sinf d roi_in).1 = roi_in) := by
  have key := modify_roi_out_roi_identity cosf sinf d roi_in hw hh hangle hcx hcy hcw hch ha
  refine ⟨key, fun hx hy => ?_⟩
  rw [key]
  cases roi_in
  simp_all

/-- C2, witness: the default parameters of `init` on a 4 x 4 image. -/
theorem modify_roi_out_identity_witness :
    (modify_roi_out (fun _ => 1) (fun _ => 0)
      (commit_params ⟨0, 0, 0, 1, 1, -1⟩ blankData) fullRoi4).1 =
        { fullRoi4 with x := 0, y := 0 } ∧
    (fullRoi4.x = 0 → fullRoi4.y = 0 → (modify_roi_out (fun _ => 1) (fun _ => 0)
      (commit_params ⟨0, 0, 0, 1, 1, -1⟩ blankData) fullRoi4).1 = fullRoi4) :=
  modify_roi_out_identity (fun _ => 1) (fun _ => 0)
    (commit_params ⟨0, 0, 0, 1, 1, -1⟩ blankData) fullRoi4
    (by decide) (by decide) (by decide!) (by decide!) (by decide!) (by decide!) (by decide!)
    (by decide!)

/-- The coordinate sampled for the output pixel `(i, j)` is the point transform
of `process` applied to the whole-buffer point of that pixel. -/
theorem sampleCoord_eq_transformPoint (d : dt_iop_clipping_data_t)
    (roi_in roi_out : dt_iop_roi_t) (i j : Int) :
    sampleCoord d roi_in roi_out i j =
      transformPoint d roi_in roi_out
        (roi_out.x + roi_out.scale * d.cix + i, roi_out.y + roi_out.scale * d.ciy + j) := by
  unfold sampleCoord procDx procDy procP0 transformPoint mul_mat_vec_2
  ext <;> (simp only; ring)

theorem modify_roi_out_m_unrotated (cosf sinf : ℚ → ℚ) (d : dt_iop_clipping_data_t)
    (roi_in : dt_iop_roi_t) (hangle : d.angle = 0)
    (hfh : d.flags &&& FLAG_FLIP_HORIZONTAL = 0) (hfv : d.flags &&& FLAG_FLIP_VERTICAL = 0) :
    (modify_roi_out cosf sinf d roi_in).2.m = ⟨1, 0, 0, 1⟩ := by
  unfold modify_roi_out
  simp [hangle, rotMat_zero, hfh, hfv]

/-- Without rotation and flips the sampled coordinate of the output pixel
`(i, j)` of a scale 1 request at offset `(x, y)` on the full input tile is the
integer point `(x + cix + i, y + ciy + j)`. -/
theorem sampleCoord_unrotated (cosf sinf : ℚ → ℚ) (d : dt_iop_clipping_data_t)
    (W H x y w h i j : Int) (hangle : d.angle = 0)
    (hfh : d.flags &&& FLAG_FLIP_HORIZONTAL = 0) (hfv : d.flags &&& FLAG_FLIP_VERTICAL = 0) :
    sampleCoord (modify_roi_out cosf sinf d ⟨0, 0, W, H, 1⟩).2 ⟨0, 0, W, H, 1⟩ ⟨x, y, w, h, 1⟩ i j =
      (((x + (modify_roi_out cosf sinf d ⟨0, 0, W, H, 1⟩).1.x + i : Int) : ℚ),
       ((y + (modify_roi_out cosf sinf d ⟨0, 0, W, H, 1⟩).1.y + j : Int) : ℚ)) := by
  rw [sampleCoord_eq_transformPoint]
  unfold transformPoint mul_mat_vec_2
  rw [modify_roi_out_m_unrotated cosf sinf d _ hangle hfh hfv]
  have hcix : (modify_roi_out cosf sinf d ⟨0, 0, W, H, 1⟩).2.cix =
      (((modify_roi_out cosf sinf d ⟨0, 0, W, H, 1⟩).1.x : Int) : ℚ) := rfl
  have hciy : (modify_roi_out cosf sinf d ⟨0, 0, W, H, 1⟩).2.ciy =
      (((modify_roi_out cosf sinf d ⟨0, 0, W, H, 1⟩).1.y : Int) : ℚ) := rfl
  rw [hcix, hciy]
  ext <;> (push_cast; ring)

/-- Without rotation and flips, `process` on the full input tile and a scale 1
request at offset `(x, y)` stores for the output pixel `(i, j)` the input pixel
at `(x + cix + i, y + ciy + j)` when that cell passes the bounds test, and 0
otherwise. -/
theorem process_unrotated (cosf sinf : ℚ → ℚ) (d : dt_iop_clipping_data_t)
    (inp o : Int → ℚ) (W H x y w h i j c : Int) (hangle : d.angle = 0)
    (hfh : d.flags &&& FLAG_FLIP_HORIZONTAL = 0) (hfv : d.flags &&& FLAG_FLIP_VERTICAL = 0)
    (hi0 : 0 ≤ i) (hi : i < w) (hj0 : 0 ≤ j) (hj : j < h) (hc0 : 0 ≤ c) (hc : c < 3) :
    process (modify_roi_out cosf sinf d ⟨0, 0, W, H, 1⟩).2 inp o ⟨0, 0, W, H, 1⟩
        ⟨x, y, w, h, 1⟩ (3 * (w * j + i) + c) =
      if inBounds ⟨0, 0, W, H, 1⟩ (x + (modify_roi_out cosf sinf d ⟨0, 0, W, H, 1⟩).1.x + i)
          (y + (modify_roi_out cosf sinf d ⟨0, 0, W, H, 1⟩).1.y + j) then
        inp (3 * (W * (y + (modify_roi_out cosf sinf d ⟨0, 0, W, H, 1⟩).1.y + j) +
          (x + (modify_roi_out cosf sinf d ⟨0, 0, W, H, 1⟩).1.x + i)) + c)
      else 0 := by
  have hp := process_pixel (modify_roi_out cosf sinf d ⟨0, 0, W, H, 1⟩).2 inp o
    ⟨0, 0, W, H, 1⟩ ⟨x, y, w, h, 1⟩ i j c hi0 hi hj0 hj hc0 hc
  simp only at hp
  rw [hp, sampleCoord_unrotated cosf sinf d W H x y w h i j hangle hfh hfv]
  unfold pixelValue
  simp only [toInt_intCast]
  split_ifs with hb
  · simp only [sub_self]
    ring
  · rfl

/-! ## Identity and crop through `process` -/

theorem commit_params_flags_unflipped (p : dt_iop_clipping_params_t)
    (d : dt_iop_clipping_data_t) (hw : 0 ≤ p.cw) (hh : 0 ≤ p.ch) :
    (commit_params p d).flags = 0 := by
  simp [commit_params, not_lt.mpr hw, not_lt.mpr hh]

/-- C3, counterexample: the identity state on a 4 x 4 image whose element `n`
holds `n + 1`; the pixel (3, 0) of the last column is stored as 0, not as the
input value 10. -/
theorem process_identity_counterexample :
    process (modify_roi_out (fun _ => 1) (fun _ => 0)
        (commit_params ⟨0, 0, 0, 1, 1, -1⟩ blankData) fullRoi4).2
      (fun n => n + 1) (fun _ => 0) fullRoi4 fullRoi4 (3 * (4 * 0 + 3) + 0) = 0 ∧
    (fun n : Int => (n : ℚ) + 1) (3 * (4 * 0 + 3) + 0) = 10 := by
  decide!

/-- C3, amended: with the state solved for `angle = 0`, crop box `[0,0,1,1]`, no
flips and unconstrained aspect on a `W x H` input at offset (0,0) and scale 1,
`process` with `roi_in = roi_out =` the full region copies every pixel that has
a right and a lower neighbour (`i <= W-2`, `j <= H-2`) unchanged; the pixels of
the last column and of the last row fail the bounds test and are stored as 0. -/
theorem process_identity (cosf sinf : ℚ → ℚ) (d : dt_iop_clipping_data_t)
    (inp o : Int → ℚ) (W H i j c : Int) (hW : 0 < W) (hH : 0 < H)
    (hangle : d.angle = 0) (hcx : d.cx = 0) (hcy : d.cy = 0) (hcw : d.cw = 1)
    (hch : d.ch = 1) (ha : d.aspect ≤ 0)
    (hfh : d.flags &&& FLAG_FLIP_HORIZONTAL = 0) (hfv : d.flags &&& FLAG_FLIP_VERTICAL = 0)
    (hi0 : 0 ≤ i) (hi : i < W) (hj0 : 0 ≤ j) (hj : j < H) (hc0 : 0 ≤ c) (hc : c < 3) :
    (i ≤ W - 2 → j ≤ H - 2 →
      process (modify_roi_out cosf sinf d ⟨0, 0, W, H, 1⟩).2 inp o ⟨0, 0, W, H, 1⟩
        ⟨0, 0, W, H, 1⟩ (3 * (W * j + i) + c) = inp (3 * (W * j + i) + c)) ∧
    (i = W - 1 ∨ j = H - 1 →
      process (modify_roi_out cosf sinf d ⟨0, 0, W, H, 1⟩).2 inp o ⟨0, 0, W, H, 1⟩
        ⟨0, 0, W, H, 1⟩ (3 * (W * j + i) + c) = 0) := by
  have hroi := modify_roi_out_roi_identity cosf sinf d ⟨0, 0, W, H, 1⟩ hW hH hangle hcx hcy
    hcw hch ha
  have hp := process_unrotated cosf sinf d inp o W H 0 0 W H i j c hangle hfh hfv hi0 hi hj0 hj
    hc0 hc
  rw [hroi] at hp
  simp only [zero_add] at hp
  constructor
  · intro h1 h2
    rw [hp, if_pos ⟨hi0, hj0, h1, h2⟩]
  · intro h1
    rw [hp, if_neg]
    rintro ⟨_, _, h3, h4⟩
    simp only at h3 h4
    omega

/-- C3, witness: the state solved from the default parameters of `init` on a
4 x 4 image, pixel (1, 2), channel 0. -/
theorem process_identity_witness :
    ((1 : Int) ≤ 4 - 2 → (2 : Int) ≤ 4 - 2 →
      process (modify_roi_out (fun _ => 1) (fun _ => 0)
        (commit_params init_params blankData) ⟨0, 0, 4, 4, 1⟩).2 (fun n => n + 1) (fun _ => 0)
        ⟨0, 0, 4, 4, 1⟩ ⟨0, 0, 4, 4, 1⟩ (3 * (4 * 2 + 1) + 0) =
        (fun n : Int => (n : ℚ) + 1) (3 * (4 * 2 + 1) + 0)) ∧
    ((1 : Int) = 4 - 1 ∨ (2 : Int) = 4 - 1 →
      process (modify_roi_out (fun _ => 1) (fun _ => 0)
        (commit_params init_params blankData) ⟨0, 0, 4, 4, 1⟩).2 (fun n => n + 1) (fun _ => 0)
        ⟨0, 0, 4, 4, 1⟩ ⟨0, 0, 4, 4, 1⟩ (3 * (4 * 2 + 1) + 0) = 0) :=
  process_identity (fun _ => 1) (fun _ => 0) (commit_params init_params blankData)
    (fun n => n + 1) (fun _ => 0) 4 4 1 2 0 (by decide) (by decide)
    (by decide!) (by decide!) (by decide!) (by decide!) (by decide!) (by decide!)
    (by decide!) (by decide!) (by decide) (by decide) (by decide) (by decide) (by decide)
    (by decide)

/-- C5, counterexample: the scenario of the specification on an image whose
element `n` holds `n`.  With `roi_out` as returned by `modify_roi_out`
(50 x 50 at (25, 25)) the output pixel (0, 0) is the input pixel (50, 50),
element 15150, not the input pixel (25, 25), element 7575. -/
theorem process_crop_counterexample :
    (modify_roi_out (fun _ => 1) (fun _ => 0) (commit_params scenario_params blankData)
      ⟨0, 0, 100, 100, 1⟩).1 = ⟨25, 25, 50, 50, 1⟩ ∧
    process (modify_roi_out (fun _ => 1) (fun _ => 0) (commit_params scenario_params blankData)
        ⟨0, 0, 100, 100, 1⟩).2 (fun n => n) (fun _ => 0) ⟨0, 0, 100, 100, 1⟩
      ⟨25, 25, 50, 50, 1⟩ (3 * (50 * 0 + 0) + 0) = 15150 ∧
    (fun n : Int => (n : ℚ)) (3 * (100 * (25 + 0) + (25 + 0)) + 0) = 7575 := by
  have hroi := modify_roi_out_roi_scenario (fun _ => 1) (fun _ => 0) blankData
  have hp := process_unrotated (fun _ => 1) (fun _ => 0) (commit_params scenario_params blankData)
    (fun n => n) (fun _ => 0) 100 100 25 25 50 50 0 0 0 (by decide!) (by decide!) (by decide!)
    (by decide) (by decide) (by decide) (by decide) (by decide) (by decide)
  refine ⟨hroi, ?_, by norm_num⟩
  rw [hp]
  unfold scenario_params
  rw [hroi]
  rw [if_pos (by unfold inBounds; decide)]
  norm_num

/-- C5, amended: for `angle = 0` and no flips, `process` on the full `W x H`
input tile (scale 1) adds the crop offset `(cix, ciy)` solved by `modify_roi_out`
to the offset `(x, y)` of the requested output region: the output pixel `(i, j)`
is the input pixel at `(x + cix + i, y + ciy + j)`, unchanged, whenever that
cell passes the bounds test.  In the scenario (100 x 100 input, crop
`[0.25,0.25,0.75,0.75]`, aspect -1) the 50 x 50 region requested at offset (0,0)
is the centre 50 x 50 sub-image of the input. -/
theorem process_crop_unrotated (cosf sinf : ℚ → ℚ) (d : dt_iop_clipping_data_t)
    (inp o : Int → ℚ) :
    (∀ W H x y w h i j c : Int, d.angle = 0 → d.flags &&& FLAG_FLIP_HORIZONTAL = 0 →
      d.flags &&& FLAG_FLIP_VERTICAL = 0 → 0 ≤ i → i < w → 0 ≤ j → j < h → 0 ≤ c → c < 3 →
      inBounds ⟨0, 0, W, H, 1⟩ (x + (modify_roi_out cosf sinf d ⟨0, 0, W, H, 1⟩).1.x + i)
        (y + (modify_roi_out cosf sinf d ⟨0, 0, W, H, 1⟩).1.y + j) →
      process (modify_roi_out cosf sinf d ⟨0, 0, W, H, 1⟩).2 inp o ⟨0, 0, W, H, 1⟩
          ⟨x, y, w, h, 1⟩ (3 * (w * j + i) + c) =
        inp (3 * (W * (y + (modify_roi_out cosf sinf d ⟨0, 0, W, H, 1⟩).1.y + j) +
          (x + (modify_roi_out cosf sinf d ⟨0, 0, W, H, 1⟩).1.x + i)) + c)) ∧
    (∀ i j c : Int, 0 ≤ i → i < 50 → 0 ≤ j → j < 50 → 0 ≤ c → c < 3 →
      process (modify_roi_out cosf sinf (commit_params scenario_params d)
          ⟨0, 0, 100, 100, 1⟩).2 inp o ⟨0, 0, 100, 100, 1⟩ ⟨0, 0, 50, 50, 1⟩
          (3 * (50 * j + i) + c) =
        inp (3 * (100 * (25 + j) + (25 + i)) + c)) := by
  constructor
  · intro W H x y w h i j c hangle hfh hfv hi0 hi hj0 hj hc0 hc hb
    rw [process_unrotated cosf sinf d inp o W H x y w h i j c hangle hfh hfv hi0 hi hj0 hj
      hc0 hc, if_pos hb]
  · intro i j c hi0 hi hj0 hj hc0 hc
    have hroi := modify_roi_out_roi_scenario cosf sinf d
    have hp := process_unrotated cosf sinf (commit_params scenario_params d) inp o
      100 100 0 0 50 50 i j c (by simp [commit_params, scenario_params])
      (by rw [commit_params_flags_unflipped _ _ (by norm_num [scenario_params])
        (by norm_num [scenario_params])]; rfl)
      (by rw [commit_params_flags_unflipped _ _ (by norm_num [scenario_params])
        (by norm_num [scenario_params])]; rfl) hi0 hi hj0 hj hc0 hc
    rw [hp]
    unfold scenario_params
    rw [hroi]
    simp only [zero_add]
    rw [if_pos]
    unfold inBounds
    simp only
    omega

/-- C5, witness: the scenario requested at offset (0,0), output pixel (49, 49),
on an image whose element `n` holds `n`. -/
theorem process_crop_unrotated_witness :
    process (modify_roi_out (fun _ => 1) (fun _ => 0) (commit_params scenario_params blankData)
        ⟨0, 0, 100, 100, 1⟩).2 (fun n => n) (fun _ => 0) ⟨0, 0, 100, 100, 1⟩
        ⟨0, 0, 50, 50, 1⟩ (3 * (50 * 49 + 49) + 0) =
      (fun n : Int => (n : ℚ)) (3 * (100 * (25 + 49) + (25 + 49)) + 0) :=
  (process_crop_unrotated (fun _ => 1) (fun _ => 0) blankData (fun n => n) (fun _ => 0)).2
    49 49 0 (by decide) (by decide) (by decide) (by decide) (by decide) (by decide)

/-! ## `cropscale` bounds and aspect enforcement -/

theorem toInt_mono {x y : ℚ} (h : x ≤ y) : toInt x ≤ toInt y := by
  unfold toInt
  split_ifs with hx hy hy
  · exact Int.floor_le_floor h
  · linarith
  · have h1 : ⌈x⌉ ≤ 0 := Int.ceil_le.mpr (by push_cast; linarith)
    have h2 : 0 ≤ ⌊y⌋ := Int.floor_nonneg.mpr hy
    omega
  · exact Int.ceil_le_ceil h

theorem cropStep_le (aabb : Nat → ℚ) (k : Nat) (ok cs : ℚ) : cropStep aabb k ok cs ≤ cs := by
  unfold cropStep
  by_cases h1 : |ok| > 1 / 1000
  · rw [if_pos h1]
    exact min_le_left _ _
  · rw [if_neg h1]

theorem cropStep_pos (aabb : Nat → ℚ) (k : Nat) (ok cs : ℚ) (hlo : aabb (0 + k) < 0)
    (hhi : 0 < aabb (2 + k)) (hcs : 0 < cs) : 0 < cropStep aabb k ok cs := by
  unfold cropStep
  by_cases h1 : |ok| > 1 / 1000
  · rw [if_pos h1]
    by_cases h2 : ok > 0
    · rw [if_pos h2]
      exact lt_min hcs (div_pos hhi h2)
    · rw [if_neg h2]
      have h3 : ok ≠ 0 := by
        intro h0
        rw [h0, abs_zero] at h1
        norm_num at h1
      have h4 : ok < 0 := lt_of_le_of_ne (not_lt.mp h2) h3
      exact lt_min hcs (div_pos_of_neg_of_neg hlo h4)
  · rw [if_neg h1]
    exact hcs

theorem cropCorner_le (rt : Mat2) (aabb : Nat → ℚ) (cs : ℚ) (c : Nat) :
    cropCorner rt aabb cs c ≤ cs :=
  le_trans (cropStep_le _ _ _ _) (cropStep_le _ _ _ _)

theorem cropCorner_pos (rt : Mat2) (aabb : Nat → ℚ) (cs : ℚ) (c : Nat)
    (h0 : aabb 0 < 0) (h1 : aabb 1 < 0) (h2 : 0 < aabb 2) (h3 : 0 < aabb 3) (hcs : 0 < cs) :
    0 < cropCorner rt aabb cs c :=
  cropStep_pos _ _ _ _ h1 h3 (cropStep_pos _ _ _ _ h0 h2 hcs)

theorem cropscaleOf_unfold (rt : Mat2) (w h : Int) :
    cropscaleOf rt w h =
      cropCorner rt (arr4 (-(1 / 2) * w) (-(1 / 2) * h) (1 / 2 * w) (1 / 2 * h))
        (cropCorner rt (arr4 (-(1 / 2) * w) (-(1 / 2) * h) (1 / 2 * w) (1 / 2 * h))
          (cropCorner rt (arr4 (-(1 / 2) * w) (-(1 / 2) * h) (1 / 2 * w) (1 / 2 * h))
            (cropCorner rt (arr4 (-(1 / 2) * w) (-(1 / 2) * h) (1 / 2 * w) (1 / 2 * h)) 1 0)
            1) 2) 3 := by
  have r4 : List.range 4 = [0, 1, 2, 3] := by decide
  unfold cropscaleOf
  simp only [r4, List.foldl]

/-- The corner loop never raises `cropscale` above its start value 1. -/
theorem cropscaleOf_le_one (rt : Mat2) (w h : Int) : cropscaleOf rt w h ≤ 1 := by
  rw [cropscaleOf_unfold]
  exact le_trans (cropCorner_le _ _ _ _) (le_trans (cropCorner_le _ _ _ _)
    (le_trans (cropCorner_le _ _ _ _) (cropCorner_le _ _ _ _)))

/-- On an input of positive width and height `cropscale` stays positive. -/
theorem cropscaleOf_pos (rt : Mat2) (w h : Int) (hw : 0 < w) (hh : 0 < h) :
    0 < cropscaleOf rt w h := by
  have hw' : (0 : ℚ) < w := by exact_mod_cast hw
  have hh' : (0 : ℚ) < h := by exact_mod_cast hh
  have a0 : arr4 (-(1 / 2) * w) (-(1 / 2) * h) (1 / 2 * w) (1 / 2 * h) 0 < 0 := by
    simp only [arr4]; linarith
  have a1 : arr4 (-(1 / 2) * w) (-(1 / 2) * h) (1 / 2 * w) (1 / 2 * h) 1 < 0 := by
    simp only [arr4]; linarith
  have a2 : 0 < arr4 (-(1 / 2) * w) (-(1 / 2) * h) (1 / 2 * w) (1 / 2 * h) 2 := by
    simp only [arr4]; linarith
  have a3 : 0 < arr4 (-(1 / 2) * w) (-(1 / 2) * h) (1 / 2 * w) (1 / 2 * h) 3 := by
    simp only [arr4]; linarith
  rw [cropscaleOf_unfold]
  exact cropCorner_pos _ _ _ _ a0 a1 a2 a3 (cropCorner_pos _ _ _ _ a0 a1 a2 a3
    (cropCorner_pos _ _ _ _ a0 a1 a2 a3 (cropCorner_pos _ _ _ _ a0 a1 a2 a3 one_pos)))

/-- With a positive aspect on an input of positive size the third branch of the
aspect enforcement is not taken, and the result is one of the first two. -/
theorem aspectCrop_constrained (d : dt_iop_clipping_data_t) (w h : Int)
    (ha : 0 < d.aspect) (hw : 0 < w) (hh : 0 < h) :
    (d.cw - d.cx ≥ d.aspect * (d.ch - d.cy) * h / w ∧
      aspectCrop d w h = (d.aspect * (d.ch - d.cy) * h / w, d.ch - d.cy)) ∨
    (d.ch - d.cy ≥ (d.cw - d.cx) * w / d.aspect / h ∧
      aspectCrop d w h = (d.cw - d.cx, (d.cw - d.cx) * w / d.aspect / h)) := by
  have hw' : (0 : ℚ) < w := by exact_mod_cast hw
  have hh' : (0 : ℚ) < h := by exact_mod_cast hh
  unfold aspectCrop
  simp only [gt_iff_lt, if_pos ha]
  by_cases h1 : d.cw - d.cx ≥ d.aspect * (d.ch - d.cy) * h / w
  · left
    exact ⟨h1, by rw [if_pos h1]⟩
  · right
    have h2 : d.ch - d.cy ≥ (d.cw - d.cx) * w / d.aspect / h := by
      have h3 : d.cw - d.cx < d.aspect * (d.ch - d.cy) * h / w := not_le.mp h1
      rw [lt_div_iff₀ hw'] at h3
      rw [ge_iff_le, div_le_iff₀ hh', div_le_iff₀ ha]
      nlinarith
    exact ⟨h2, by rw [if_neg h1, if_pos h2]⟩

/-- C6: for every state with `aspect > 0` and every input region of positive
width and height, the crop fractions after aspect enforcement are no larger
than the unconstrained ones `cw - cx` and `ch - cy`, at most one of the two
differs from its unconstrained value, and the width and height of the output
region are no larger than those for the same state with `aspect <= 0`. -/
theorem aspect_monotone (cosf sinf : ℚ → ℚ) (d : dt_iop_clipping_data_t)
    (roi_in : dt_iop_roi_t) (a0 : ℚ) (ha : 0 < d.aspect) (ha0 : a0 ≤ 0)
    (hw : 0 < roi_in.width) (hh : 0 < roi_in.height) :
    (aspectCrop d roi_in.width roi_in.height).1 ≤ d.cw - d.cx ∧
    (aspectCrop d roi_in.width roi_in.height).2 ≤ d.ch - d.cy ∧
    ((aspectCrop d roi_in.width roi_in.height).1 = d.cw - d.cx ∨
      (aspectCrop d roi_in.width roi_in.height).2 = d.ch - d.cy) ∧
    (modify_roi_out cosf sinf d roi_in).1.width ≤
      (modify_roi_out cosf sinf { d with aspect := a0 } roi_in).1.width ∧
    (modify_roi_out cosf sinf d roi_in).1.height ≤
      (modify_roi_out cosf sinf { d with aspect := a0 } roi_in).1.height := by
  have hw' : (0 : ℚ) < roi_in.width := by exact_mod_cast hw
  have hh' : (0 : ℚ) < roi_in.height := by exact_mod_cast hh
  have hcs := cropscaleOf_pos (rotMat cosf sinf d.angle) _ _ hw hh
  have hun : aspectCrop { d with aspect := a0 } roi_in.width roi_in.height =
      (d.cw - d.cx, d.ch - d.cy) := aspectCrop_unconstrained _ _ _ ha0
  have h1 : (aspectCrop d roi_in.width roi_in.height).1 ≤ d.cw - d.cx := by
    rcases aspectCrop_constrained d _ _ ha hw hh with ⟨hc, he⟩ | ⟨_, he⟩
    · rw [he]; exact hc
    · rw [he]
  have h2 : (aspectCrop d roi_in.width roi_in.height).2 ≤ d.ch - d.cy := by
    rcases aspectCrop_constrained d _ _ ha hw hh with ⟨_, he⟩ | ⟨hc, he⟩
    · rw [he]
    · rw [he]; exact hc
  have h3 : (aspectCrop d roi_in.width roi_in.height).1 = d.cw - d.cx ∨
      (aspectCrop d roi_in.width roi_in.height).2 = d.ch - d.cy := by
    rcases aspectCrop_constrained d _ _ ha hw hh with ⟨_, he⟩ | ⟨_, he⟩
    · right; rw [he]
    · left; rw [he]
  have hclamp : ∀ m n : Int, m ≤ n → (if m < 1 then 1 else m) ≤ (if n < 1 then 1 else n) := by
    intro m n hmn
    split_ifs <;> omega
  refine ⟨h1, h2, h3, ?_, ?_⟩
  · simp only [modify_roi_out, hun]
    apply hclamp
    apply toInt_mono
    exact mul_le_mul_of_nonneg_right (mul_le_mul_of_nonneg_right h1 (le_of_lt hcs))
      (le_of_lt hw')
  · simp only [modify_roi_out, hun]
    apply hclamp
    apply toInt_mono
    exact mul_le_mul_of_nonneg_right (mul_le_mul_of_nonneg_right h2 (le_of_lt hcs))
      (le_of_lt hh')

/-- C6, witness: a 100 x 100 input, crop `[0,0,1,0.5]` and a forced aspect of 1,
against the same state with aspect -1. -/
theorem aspect_monotone_witness :
    (aspectCrop (commit_params ⟨0, 0, 0, 1, 1 / 2, 1⟩ blankData) 100 100).1 ≤ 1 - 0 ∧
    (modify_roi_out (fun _ => 1) (fun _ => 0) (commit_params ⟨0, 0, 0, 1, 1 / 2, 1⟩ blankData)
      ⟨0, 0, 100, 100, 1⟩).1.width ≤
    (modify_roi_out (fun _ => 1) (fun _ => 0)
      { commit_params ⟨0, 0, 0, 1, 1 / 2, 1⟩ blankData with aspect := -1 }
      ⟨0, 0, 100, 100, 1⟩).1.width :=
  have h := aspect_monotone (fun _ => 1) (fun _ => 0)
    (commit_params ⟨0, 0, 0, 1, 1 / 2, 1⟩ blankData) ⟨0, 0, 100, 100, 1⟩ (-1)
    (by decide!) (by decide!) (by decide) (by decide)
  ⟨h.1, h.2.2.2.1⟩

/-! ## Horizontal flip -/

theorem cropStep_mul_abs_le (aabb : Nat → ℚ) (k : Nat) (ok cs H : ℚ) (hH : 1 / 1000 ≤ H)
    (hlo : aabb (0 + k) = -H) (hhi : aabb (2 + k) = H) (hcs : 0 < cs) (hcs1 : cs ≤ 1) :
    cropStep aabb k ok cs * |ok| ≤ H := by
  have hHpos : 0 < H := by linarith
  unfold cropStep
  by_cases h1 : |ok| > 1 / 1000
  · rw [if_pos h1]
    have habs : 0 < |ok| := by linarith
    have hq : aabb ((if ok > 0 then 2 else 0) + k) / ok = H / |ok| := by
      by_cases h2 : ok > 0
      · rw [if_pos h2, hhi, abs_of_pos h2]
      · have h3 : ok < 0 := by
          rcases lt_trichotomy ok 0 with h | h | h
          · exact h
          · rw [h, abs_zero] at habs; exact absurd habs (lt_irrefl _)
          · exact absurd h h2
        rw [if_neg h2, hlo, abs_of_neg h3, div_neg, neg_div]
    rw [hq]
    calc min cs (H / |ok|) * |ok| ≤ H / |ok| * |ok| :=
          mul_le_mul_of_nonneg_right (min_le_right _ _) (le_of_lt habs)
      _ = H := div_mul_cancel₀ H (ne_of_gt habs)
  · rw [if_neg h1]
    have h2 : |ok| ≤ 1 / 1000 := not_lt.mp h1
    have h3 : 0 ≤ |ok| := abs_nonneg _
    nlinarith

theorem abs_add_abs_le_max (c s : ℚ) : |c| + |s| ≤ max |c - s| |c + s| := by
  rcases le_total 0 c with hc | hc <;> rcases le_total 0 s with hs | hs
  · rw [abs_of_nonneg hc, abs_of_nonneg hs]
    exact le_trans (le_abs_self _) (le_max_right _ _)
  · rw [abs_of_nonneg hc, abs_of_nonpos hs]
    exact le_trans (by rw [sub_eq_add_neg]) (le_trans (le_abs_self (c - s)) (le_max_left _ _))
  · rw [abs_of_nonpos hc, abs_of_nonneg hs]
    have : -c + s = -(c - s) := by ring
    rw [this]
    exact le_trans (neg_le_abs _) (le_max_left _ _)
  · rw [abs_of_nonpos hc, abs_of_nonpos hs]
    have : -c + -s = -(c + s) := by ring
    rw [this]
    exact le_trans (neg_le_abs _) (le_max_right _ _)

/-- On a square input the corner loop leaves `cropscale * (|c| + |s|) <= 1` for
the rotation matrix `{c, -s, s, c}`. -/
theorem cropscaleOf_square (c s : ℚ) (w : Int) (hw : 1 ≤ w) :
    cropscaleOf ⟨c, -s, s, c⟩ w w * (|c| + |s|) ≤ 1 := by
  have hw' : (1 : ℚ) ≤ w := by exact_mod_cast hw
  set aabb := arr4 (-(1 / 2) * w) (-(1 / 2) * w) (1 / 2 * w) (1 / 2 * w) with haabb
  have hH : (1 : ℚ) / 1000 ≤ 1 / 2 * w := by linarith
  have hHpos : (0 : ℚ) < 1 / 2 * w := by linarith
  have a0 : aabb 0 < 0 := by simp only [haabb, arr4]; linarith
  have a1 : aabb 1 < 0 := by simp only [haabb, arr4]; linarith
  have a2 : 0 < aabb 2 := by simp only [haabb, arr4]; linarith
  have a3 : 0 < aabb 3 := by simp only [haabb, arr4]; linarith
  have l0 : aabb (0 + 0) = -(1 / 2 * w) := by simp only [haabb, arr4]; ring
  have l1 : aabb (0 + 1) = -(1 / 2 * w) := by simp only [haabb, arr4]; ring
  have u0 : aabb (2 + 0) = 1 / 2 * w := by simp only [haabb, arr4]
  have u1 : aabb (2 + 1) = 1 / 2 * w := by simp only [haabb, arr4]
  set cs2 := cropCorner ⟨c, -s, s, c⟩ aabb
    (cropCorner ⟨c, -s, s, c⟩ aabb (cropCorner ⟨c, -s, s, c⟩ aabb 1 0) 1) 2 with hcs2
  have hcs2pos : 0 < cs2 :=
    cropCorner_pos _ _ _ _ a0 a1 a2 a3 (cropCorner_pos _ _ _ _ a0 a1 a2 a3
      (cropCorner_pos _ _ _ _ a0 a1 a2 a3 one_pos))
  have hcs2le : cs2 ≤ 1 :=
    le_trans (cropCorner_le _ _ _ _) (le_trans (cropCorner_le _ _ _ _) (cropCorner_le _ _ _ _))
  have hfin : cropscaleOf ⟨c, -s, s, c⟩ w w = cropCorner ⟨c, -s, s, c⟩ aabb cs2 3 := by
    rw [cropscaleOf_unfold]
  have hpos := cropscaleOf_pos ⟨c, -s, s, c⟩ w w (by omega) (by omega)
  rw [hfin] at hpos ⊢
  simp only [cropCorner, get_corner_3, mul_mat_vec_2] at hpos ⊢
  set o1 := aabb 2 * c + aabb 3 * -s with ho1
  set o2 := aabb 2 * s + aabb 3 * c with ho2
  set inner := cropStep aabb 0 o1 cs2 with hinner
  have hin_pos : 0 < inner := cropStep_pos _ _ _ _ (by rw [l0]; linarith) (by rw [u0]; linarith)
    hcs2pos
  have hin_le : inner ≤ 1 := le_trans (cropStep_le _ _ _ _) hcs2le
  have b1 : inner * |o1| ≤ 1 / 2 * w :=
    cropStep_mul_abs_le aabb 0 o1 cs2 _ hH l0 u0 hcs2pos hcs2le
  have b2 : cropStep aabb 1 o2 inner * |o2| ≤ 1 / 2 * w :=
    cropStep_mul_abs_le aabb 1 o2 inner _ hH l1 u1 hin_pos hin_le
  have b1' : cropStep aabb 1 o2 inner * |o1| ≤ 1 / 2 * w :=
    le_trans (mul_le_mul_of_nonneg_right (cropStep_le _ _ _ _) (abs_nonneg _)) b1
  have e1 : |o1| = 1 / 2 * w * |c - s| := by
    have : o1 = 1 / 2 * w * (c - s) := by
      simp only [ho1, haabb, arr4]; ring
    rw [this, abs_mul, abs_of_pos hHpos]
  have e2 : |o2| = 1 / 2 * w * |c + s| := by
    have : o2 = 1 / 2 * w * (c + s) := by
      simp only [ho2, haabb, arr4]; ring
    rw [this, abs_mul, abs_of_pos hHpos]
  rw [e1] at b1'
  rw [e2] at b2
  set cs := cropStep aabb 1 o2 inner with hcs
  have c1 : cs * |c - s| ≤ 1 := by
    have : (1 / 2 * (w : ℚ)) * (cs * |c - s|) ≤ (1 / 2 * w) * 1 := by linarith
    exact le_of_mul_le_mul_left this hHpos
  have c2 : cs * |c + s| ≤ 1 := by
    have : (1 / 2 * (w : ℚ)) * (cs * |c + s|) ≤ (1 / 2 * w) * 1 := by linarith
    exact le_of_mul_le_mul_left this hHpos
  have hmax := abs_add_abs_le_max c s
  rcases le_total |c - s| |c + s| with h | h
  · rw [max_eq_right h] at hmax
    exact le_trans (mul_le_mul_of_nonneg_left hmax (le_of_lt hpos)) c2
  · rw [max_eq_left h] at hmax
    exact le_trans (mul_le_mul_of_nonneg_left hmax (le_of_lt hpos)) c1

/-! ## The exact extent and its integer conversion -/

/-- The integer fields of `roi_out` are the conversions of the exact extent:
origin truncated, width and height truncated and raised to at least 1. -/
theorem modify_roi_out_eq_extentExact (cosf sinf : ℚ → ℚ) (d : dt_iop_clipping_data_t)
    (roi_in : dt_iop_roi_t) :
    (modify_roi_out cosf sinf d roi_in).1.x = toInt (extentExact cosf sinf d roi_in).1 ∧
    (modify_roi_out cosf sinf d roi_in).1.y = toInt (extentExact cosf sinf d roi_in).2.1 ∧
    (modify_roi_out cosf sinf d roi_in).1.width =
      (if toInt (extentExact cosf sinf d roi_in).2.2.1 < 1 then 1
        else toInt (extentExact cosf sinf d roi_in).2.2.1) ∧
    (modify_roi_out cosf sinf d roi_in).1.height =
      (if toInt (extentExact cosf sinf d roi_in).2.2.2 < 1 then 1
        else toInt (extentExact cosf sinf d roi_in).2.2.2) :=
  ⟨rfl, rfl, rfl, rfl⟩

/-! ## The solved region rotated back -/

theorem toInt_of_nonneg {x : ℚ} (hx : 0 ≤ x) : (toInt x : ℚ) ≤ x ∧ x - 1 < toInt x := by
  unfold toInt
  rw [if_pos hx]
  exact ⟨Int.floor_le x, Int.sub_one_lt_floor x⟩

theorem rotMat_form (cosf sinf : ℚ → ℚ) (a : ℚ) :
    ∃ c s : ℚ, rotMat cosf sinf a = ⟨c, -s, s, c⟩ ∧
      (cosf a ^ 2 + sinf a ^ 2 = 1 → c ^ 2 + s ^ 2 = 1) := by
  unfold rotMat
  by_cases h : a = 0
  · exact ⟨1, 0, by simp [h], fun _ => by norm_num⟩
  · exact ⟨cosf a, sinf a, by simp [h], fun h => h⟩

/-- The flips only change signs of the entries of the solved matrix. -/
theorem modify_roi_out_m_abs (cosf sinf : ℚ → ℚ) (d : dt_iop_clipping_data_t)
    (roi_in : dt_iop_roi_t) :
    |(modify_roi_out cosf sinf d roi_in).2.m.m0| = |(rotMat cosf sinf d.angle).m0| ∧
    |(modify_roi_out cosf sinf d roi_in).2.m.m1| = |(rotMat cosf sinf d.angle).m1| ∧
    |(modify_roi_out cosf sinf d roi_in).2.m.m2| = |(rotMat cosf sinf d.angle).m2| ∧
    |(modify_roi_out cosf sinf d roi_in).2.m.m3| = |(rotMat cosf sinf d.angle).m3| := by
  unfold modify_roi_out
  by_cases h1 : d.flags &&& FLAG_FLIP_HORIZONTAL ≠ 0 <;>
    by_cases h2 : d.flags &&& FLAG_FLIP_VERTICAL ≠ 0 <;>
    simp only [h1, h2, if_true, if_false, abs_neg, and_self, not_false_eq_true, ne_eq,
      not_true_eq_false]

theorem rotateBack_within (d : dt_iop_clipping_data_t) (q : ℚ × ℚ) (R T : ℚ)
    (h1 : |q.1 - d.tx| ≤ R) (h2 : |q.2 - d.ty| ≤ R)
    (hm1 : (|d.m.m0| + |d.m.m1|) * R ≤ T) (hm2 : (|d.m.m2| + |d.m.m3|) * R ≤ T) :
    |(rotateBack d q).1 - d.tx| ≤ T ∧ |(rotateBack d q).2 - d.ty| ≤ T := by
  have hR : 0 ≤ R := le_trans (abs_nonneg _) h1
  unfold rotateBack mul_mat_vec_2
  simp only [add_sub_cancel_right]
  constructor
  · calc |(q.1 - d.tx) * d.m.m0 + (q.2 - d.ty) * d.m.m1|
        ≤ |(q.1 - d.tx) * d.m.m0| + |(q.2 - d.ty) * d.m.m1| := abs_add _ _
      _ = |q.1 - d.tx| * |d.m.m0| + |q.2 - d.ty| * |d.m.m1| := by rw [abs_mul, abs_mul]
      _ ≤ R * |d.m.m0| + R * |d.m.m1| :=
          add_le_add (mul_le_mul_of_nonneg_right h1 (abs_nonneg _))
            (mul_le_mul_of_nonneg_right h2 (abs_nonneg _))
      _ = (|d.m.m0| + |d.m.m1|) * R := by ring
      _ ≤ T := hm1
  · calc |(q.1 - d.tx) * d.m.m2 + (q.2 - d.ty) * d.m.m3|
        ≤ |(q.1 - d.tx) * d.m.m2| + |(q.2 - d.ty) * d.m.m3| := abs_add _ _
      _ = |q.1 - d.tx| * |d.m.m2| + |q.2 - d.ty| * |d.m.m3| := by rw [abs_mul, abs_mul]
      _ ≤ R * |d.m.m2| + R * |d.m.m3| :=
          add_le_add (mul_le_mul_of_nonneg_right h1 (abs_nonneg _))
            (mul_le_mul_of_nonneg_right h2 (abs_nonneg _))
      _ = (|d.m.m2| + |d.m.m3|) * R := by ring
      _ ≤ T := hm2

/-- After aspect enforcement the crop fractions stay between 0 and the
unconstrained ones. -/
theorem aspectCrop_bounds (d : dt_iop_clipping_data_t) (w h : Int) (hw : 0 < w) (hh : 0 < h)
    (hx : d.cx ≤ d.cw) (hy : d.cy ≤ d.ch) :
    0 ≤ (aspectCrop d w h).1 ∧ (aspectCrop d w h).1 ≤ d.cw - d.cx ∧
    0 ≤ (aspectCrop d w h).2 ∧ (aspectCrop d w h).2 ≤ d.ch - d.cy := by
  have hw' : (0 : ℚ) < w := by exact_mod_cast hw
  have hh' : (0 : ℚ) < h := by exact_mod_cast hh
  have hx' : 0 ≤ d.cw - d.cx := by linarith
  have hy' : 0 ≤ d.ch - d.cy := by linarith
  by_cases ha : 0 < d.aspect
  · rcases aspectCrop_constrained d w h ha hw hh with ⟨hc, he⟩ | ⟨hc, he⟩
    · rw [he]
      refine ⟨?_, hc, hy', le_rfl⟩
      positivity
    · rw [he]
      refine ⟨hx', le_rfl, ?_, hc⟩
      positivity
  · rw [aspectCrop_unconstrained d w h (not_lt.mp ha)]
    exact ⟨hx', le_rfl, hy', le_rfl⟩

theorem abs_add_abs_le_of_sq (c s : ℚ) (h : c ^ 2 + s ^ 2 = 1) : |c| + |s| ≤ 3 / 2 := by
  have h1 : |c| ^ 2 = c ^ 2 := sq_abs c
  have h2 : |s| ^ 2 = s ^ 2 := sq_abs s
  nlinarith [abs_nonneg c, abs_nonneg s, sq_nonneg (|c| - |s|)]

/-- One axis of the solved extent for an input of size `W`: the exact interval
stays within `cropscale * W / 2` of the centre, the integer interval within one
more pixel. -/
theorem axis_bounds (W cs cx a1 : ℚ) (hW : 0 < W) (hcs0 : 0 < cs) (hcs1 : cs ≤ 1)
    (hcx : 0 ≤ cx) (ha : 0 ≤ a1) (hsum : cx + a1 ≤ 1) :
    |W * (1 / 2) - (1 / 2 - cx) * cs * W - W * (1 / 2)| ≤ cs * (W / 2) ∧
    |W * (1 / 2) - (1 / 2 - cx) * cs * W + a1 * cs * W - W * (1 / 2)| ≤ cs * (W / 2) ∧
    |((toInt (W * (1 / 2) - (1 / 2 - cx) * cs * W) : Int) : ℚ) - W * (1 / 2)| ≤
      cs * (W / 2) + 1 ∧
    |((toInt (W * (1 / 2) - (1 / 2 - cx) * cs * W) : Int) : ℚ) +
      ((if toInt (a1 * cs * W) < 1 then 1 else toInt (a1 * cs * W) : Int) : ℚ) -
      W * (1 / 2)| ≤ cs * (W / 2) + 1 := by
  have hP : 0 < cs * W := mul_pos hcs0 hW
  have hcx1 : cx ≤ 1 := by linarith
  have hX : 0 ≤ W * (1 / 2) - (1 / 2 - cx) * cs * W := by nlinarith
  have hWd : 0 ≤ a1 * cs * W := by positivity
  obtain ⟨t1, t2⟩ := toInt_of_nonneg hX
  obtain ⟨w1, _⟩ := toInt_of_nonneg hWd
  have hclamp : (((if toInt (a1 * cs * W) < 1 then 1 else toInt (a1 * cs * W) : Int)) : ℚ) ≤
      max 1 (a1 * cs * W) ∧
      (1 : ℚ) ≤ ((if toInt (a1 * cs * W) < 1 then 1 else toInt (a1 * cs * W) : Int)) := by
    split_ifs with hlt
    · exact ⟨by push_cast; exact le_max_left _ _, by push_cast; exact le_rfl⟩
    · have : (1 : Int) ≤ toInt (a1 * cs * W) := by omega
      exact ⟨le_trans w1 (le_max_right _ _), by exact_mod_cast this⟩
  obtain ⟨k1, k2⟩ := hclamp
  have hmax : max 1 (a1 * cs * W) ≤ 1 + a1 * cs * W := max_le (by linarith) (by linarith)
  refine ⟨?_, ?_, ?_, ?_⟩
  · rw [abs_le]; constructor <;> nlinarith
  · rw [abs_le]; constructor <;> nlinarith
  · rw [abs_le]; constructor <;> nlinarith
  · rw [abs_le]
    constructor
    · nlinarith
    · rcases le_total 1 (a1 * cs * W) with h | h
      · rw [max_eq_right h] at k1
        nlinarith
      · rw [max_eq_left h] at k1
        nlinarith

/-- A point within `cs * W / 2 + e` of the centre of a square input, in both
coordinates, is rotated back to within `E` of the input bounds when
`cs * (|c| + |s|) <= 1` and `(|c| + |s|) * e <= E`. -/
theorem corner_inside (d : dt_iop_clipping_data_t) (q : ℚ × ℚ) (W cs c s e E : ℚ)
    (htx : d.tx = W * (1 / 2)) (hty : d.ty = W * (1 / 2)) (hW : 0 < W)
    (h0 : |d.m.m0| = |c|) (h1 : |d.m.m1| = |s|) (h2 : |d.m.m2| = |s|) (h3 : |d.m.m3| = |c|)
    (hkey : cs * (|c| + |s|) ≤ 1) (hA : (|c| + |s|) * e ≤ E)
    (hq1 : |q.1 - W * (1 / 2)| ≤ cs * (W / 2) + e)
    (hq2 : |q.2 - W * (1 / 2)| ≤ cs * (W / 2) + e) :
    -E ≤ (rotateBack d q).1 ∧ (rotateBack d q).1 ≤ W + E ∧
    -E ≤ (rotateBack d q).2 ∧ (rotateBack d q).2 ≤ W + E := by
  have hbound : (|c| + |s|) * (cs * (W / 2) + e) ≤ W / 2 + E := by
    have : (|c| + |s|) * (cs * (W / 2) + e) = cs * (|c| + |s|) * (W / 2) + (|c| + |s|) * e := by
      ring
    rw [this]
    have hh : cs * (|c| + |s|) * (W / 2) ≤ 1 * (W / 2) :=
      mul_le_mul_of_nonneg_right hkey (by linarith)
    linarith
  have hb := rotateBack_within d q (cs * (W / 2) + e) (W / 2 + E)
    (by rw [htx]; exact hq1) (by rw [hty]; exact hq2)
    (by rw [h0, h1]; exact hbound) (by rw [h2, h3, add_comm]; exact hbound)
  rw [htx, hty, abs_le, abs_le] at hb
  obtain ⟨⟨b1, b2⟩, b3, b4⟩ := hb
  refine ⟨?_, ?_, ?_, ?_⟩ <;> linarith

/-- The facts about the solved state on a square input that the bounds on the
rotated-back corners rest on. -/
theorem square_state_facts (cosf sinf : ℚ → ℚ) (d : dt_iop_clipping_data_t)
    (roi_in : dt_iop_roi_t) (hsq : roi_in.width = roi_in.height) (hW : 1 ≤ roi_in.width) :
    ∃ c s : ℚ, (cosf d.angle ^ 2 + sinf d.angle ^ 2 = 1 → c ^ 2 + s ^ 2 = 1) ∧
      |(modify_roi_out cosf sinf d roi_in).2.m.m0| = |c| ∧
      |(modify_roi_out cosf sinf d roi_in).2.m.m1| = |s| ∧
      |(modify_roi_out cosf sinf d roi_in).2.m.m2| = |s| ∧
      |(modify_roi_out cosf sinf d roi_in).2.m.m3| = |c| ∧
      cropscaleOf (rotMat cosf sinf d.angle) roi_in.width roi_in.height * (|c| + |s|) ≤ 1 := by
  obtain ⟨c, s, hrt, htrig⟩ := rotMat_form cosf sinf d.angle
  obtain ⟨m0, m1, m2, m3⟩ := modify_roi_out_m_abs cosf sinf d roi_in
  rw [hrt] at m0 m1 m2 m3
  simp only [abs_neg] at m1
  refine ⟨c, s, htrig, m0, m1, m2, m3, ?_⟩
  rw [hrt, ← hsq]
  exact cropscaleOf_square c s roi_in.width hW

/-- C9, counterexample: an 8 x 8 input with the full crop box rotated by the
3-4-5 angle (`cos = 3/5`, `sin = 4/5`): the output region is 5 x 5 at (1, 1) and
its corner (1, 1), rotated back about the centre (4, 4), has x coordinate -1/5,
left of the input.  An 8 x 8 input without rotation and the crop box
`cx = cw = 1`: the output region is 1 x 8 at (8, 0), its corner (9, 0) stays at
x = 9, right of the input. -/
theorem roi_out_rotated_back_counterexample :
    (cos345 (commit_params rot345_params blankData).angle ^ 2 +
      sin345 (commit_params rot345_params blankData).angle ^ 2 = 1 ∧
    (modify_roi_out cos345 sin345 (commit_params rot345_params blankData) fullRoi8).1 =
      ⟨1, 1, 5, 5, 1⟩ ∧
    (rotateBack (modify_roi_out cos345 sin345 (commit_params rot345_params blankData)
      fullRoi8).2 (1, 1)).1 = -1 / 5) ∧
    ((modify_roi_out (fun _ => 1) (fun _ => 0)
      (commit_params ⟨0, 1, 0, 1, 1, -1⟩ blankData) fullRoi8).1 = ⟨8, 0, 1, 8, 1⟩ ∧
    (rotateBack (modify_roi_out (fun _ => 1) (fun _ => 0)
      (commit_params ⟨0, 1, 0, 1, 1, -1⟩ blankData) fullRoi8).2 (8 + 1, 0)).1 = 9) := by
  decide!

/-- C9, amended: for every square input (`W = H >= 1`), every rotation angle
and every crop box with `0 <= cx <= cw <= 1`, `0 <= cy <= ch <= 1`, the
rectangle that `modify_roi_out` computes before the conversion to the integer
fields of `roi_out` (origin `tx - (0.5 - cx)*cropscale*W`, extent
`acw*cropscale*W`, likewise in y), with each of its four corners rotated back
about `(tx, ty)` by the solved matrix `m`, lies inside `[0,W] x [0,H]`. -/
theorem extent_rotated_back_inside (cosf sinf : ℚ → ℚ) (d : dt_iop_clipping_data_t)
    (roi_in : dt_iop_roi_t) (hsq : roi_in.width = roi_in.height) (hW : 1 ≤ roi_in.width)
    (hcx0 : 0 ≤ d.cx) (hcxw : d.cx ≤ d.cw) (hcw1 : d.cw ≤ 1)
    (hcy0 : 0 ≤ d.cy) (hcyh : d.cy ≤ d.ch) (hch1 : d.ch ≤ 1) :
    ∀ q ∈ rectCorners (extentExact cosf sinf d roi_in).1 (extentExact cosf sinf d roi_in).2.1
        (extentExact cosf sinf d roi_in).2.2.1 (extentExact cosf sinf d roi_in).2.2.2,
      0 ≤ (rotateBack (modify_roi_out cosf sinf d roi_in).2 q).1 ∧
      (rotateBack (modify_roi_out cosf sinf d roi_in).2 q).1 ≤ roi_in.width ∧
      0 ≤ (rotateBack (modify_roi_out cosf sinf d roi_in).2 q).2 ∧
      (rotateBack (modify_roi_out cosf sinf d roi_in).2 q).2 ≤ roi_in.height := by
  obtain ⟨c, s, _, m0, m1, m2, m3, hkey⟩ := square_state_facts cosf sinf d roi_in hsq hW
  have hWq : (0 : ℚ) < roi_in.width := by exact_mod_cast (by omega : 0 < roi_in.width)
  have hHW : (roi_in.height : ℚ) = roi_in.width := by rw [hsq]
  have hcs0 := cropscaleOf_pos (rotMat cosf sinf d.angle) roi_in.width roi_in.height
    (by omega) (by omega)
  have hcs1 := cropscaleOf_le_one (rotMat cosf sinf d.angle) roi_in.width roi_in.height
  obtain ⟨a1, a2, a3, a4⟩ := aspectCrop_bounds d roi_in.width roi_in.height (by omega)
    (by omega) hcxw hcyh
  obtain ⟨x1, x2, _, _⟩ := axis_bounds roi_in.width
    (cropscaleOf (rotMat cosf sinf d.angle) roi_in.width roi_in.height) d.cx
    (aspectCrop d roi_in.width roi_in.height).1 hWq hcs0 hcs1 hcx0 a1 (by linarith)
  obtain ⟨y1, y2, _, _⟩ := axis_bounds roi_in.width
    (cropscaleOf (rotMat cosf sinf d.angle) roi_in.width roi_in.height) d.cy
    (aspectCrop d roi_in.width roi_in.height).2 hWq hcs0 hcs1 hcy0 a3 (by linarith)
  have htx : (modify_roi_out cosf sinf d roi_in).2.tx = roi_in.width * (1 / 2) := rfl
  have hty : (modify_roi_out cosf sinf d roi_in).2.ty = roi_in.width * (1 / 2) := by
    rw [← hHW]; rfl
  have hz : (|c| + |s|) * 0 ≤ (0 : ℚ) := by simp
  intro q hq
  have hin := corner_inside (modify_roi_out cosf sinf d roi_in).2 q roi_in.width
    (cropscaleOf (rotMat cosf sinf d.angle) roi_in.width roi_in.height) c s 0 0
    htx hty hWq m0 m1 m2 m3 hkey hz
  simp only [add_zero, neg_zero] at hin
  rw [hHW]
  apply hin
  all_goals
    simp only [rectCorners, extentExact, List.mem_cons, List.mem_singleton, List.not_mem_nil,
      or_false, hHW] at hq
    rcases hq with rfl | rfl | rfl | rfl <;> assumption

/-- C9, witness: the 8 x 8 input rotated by the 3-4-5 angle with the full crop
box; the first corner of the exact rectangle. -/
theorem extent_rotated_back_inside_witness :
    0 ≤ (rotateBack (modify_roi_out cos345 sin345 (commit_params rot345_params blankData)
        fullRoi8).2
      ((extentExact cos345 sin345 (commit_params rot345_params blankData) fullRoi8).1,
       (extentExact cos345 sin345 (commit_params rot345_params blankData) fullRoi8).2.1)).1 ∧
    (rotateBack (modify_roi_out cos345 sin345 (commit_params rot345_params blankData)
        fullRoi8).2
      ((extentExact cos345 sin345 (commit_params rot345_params blankData) fullRoi8).1,
       (extentExact cos345 sin345 (commit_params rot345_params blankData) fullRoi8).2.1)).1 ≤
      fullRoi8.width :=
  have h := extent_rotated_back_inside cos345 sin345 (commit_params rot345_params blankData)
    fullRoi8 (by decide) (by decide) (by decide!) (by decide!) (by decide!) (by decide!)
    (by decide!) (by decide!) _ (List.Mem.head _)
  ⟨h.1, h.2.1⟩

/-- The integer rectangle of `roi_out` on a square input (origin truncated,
extent truncated and raised to at least 1), with each corner rotated back about
`(tx, ty)` by `m`, lies inside `[-3/2, W + 3/2] x [-3/2, H + 3/2]` when
`cos^2 + sin^2 = 1`. -/
theorem roi_out_rotated_back_margin (cosf sinf : ℚ → ℚ) (d : dt_iop_clipping_data_t)
    (roi_in : dt_iop_roi_t) (hsq : roi_in.width = roi_in.height) (hW : 1 ≤ roi_in.width)
    (hcx0 : 0 ≤ d.cx) (hcxw : d.cx ≤ d.cw) (hcw1 : d.cw ≤ 1)
    (hcy0 : 0 ≤ d.cy) (hcyh : d.cy ≤ d.ch) (hch1 : d.ch ≤ 1)
    (htr : cosf d.angle ^ 2 + sinf d.angle ^ 2 = 1) :
    ∀ q ∈ rectCorners (modify_roi_out cosf sinf d roi_in).1.x
        (modify_roi_out cosf sinf d roi_in).1.y (modify_roi_out cosf sinf d roi_in).1.width
        (modify_roi_out cosf sinf d roi_in).1.height,
      -(3 / 2) ≤ (rotateBack (modify_roi_out cosf sinf d roi_in).2 q).1 ∧
      (rotateBack (modify_roi_out cosf sinf d roi_in).2 q).1 ≤ roi_in.width + 3 / 2 ∧
      -(3 / 2) ≤ (rotateBack (modify_roi_out cosf sinf d roi_in).2 q).2 ∧
      (rotateBack (modify_roi_out cosf sinf d roi_in).2 q).2 ≤ roi_in.height + 3 / 2 := by
  obtain ⟨c, s, htrig, m0, m1, m2, m3, hkey⟩ := square_state_facts cosf sinf d roi_in hsq hW
  have hWq : (0 : ℚ) < roi_in.width := by exact_mod_cast (by omega : 0 < roi_in.width)
  have hHW : (roi_in.height : ℚ) = roi_in.width := by rw [hsq]
  have hcs0 := cropscaleOf_pos (rotMat cosf sinf d.angle) roi_in.width roi_in.height
    (by omega) (by omega)
  have hcs1 := cropscaleOf_le_one (rotMat cosf sinf d.angle) roi_in.width roi_in.height
  obtain ⟨a1, a2, a3, a4⟩ := aspectCrop_bounds d roi_in.width roi_in.height (by omega)
    (by omega) hcxw hcyh
  obtain ⟨_, _, x3, x4⟩ := axis_bounds roi_in.width
    (cropscaleOf (rotMat cosf sinf d.angle) roi_in.width roi_in.height) d.cx
    (aspectCrop d roi_in.width roi_in.height).1 hWq hcs0 hcs1 hcx0 a1 (by linarith)
  obtain ⟨_, _, y3, y4⟩ := axis_bounds roi_in.width
    (cropscaleOf (rotMat cosf sinf d.angle) roi_in.width roi_in.height) d.cy
    (aspectCrop d roi_in.width roi_in.height).2 hWq hcs0 hcs1 hcy0 a3 (by linarith)
  have htx : (modify_roi_out cosf sinf d roi_in).2.tx = roi_in.width * (1 / 2) := rfl
  have hty : (modify_roi_out cosf sinf d roi_in).2.ty = roi_in.width * (1 / 2) := by
    rw [← hHW]; rfl
  have hA : (|c| + |s|) * 1 ≤ (3 / 2 : ℚ) := by
    rw [mul_one]; exact abs_add_abs_le_of_sq c s (htrig htr)
  intro q hq
  have hin := corner_inside (modify_roi_out cosf sinf d roi_in).2 q roi_in.width
    (cropscaleOf (rotMat cosf sinf d.angle) roi_in.width roi_in.height) c s 1 (3 / 2)
    htx hty hWq m0 m1 m2 m3 hkey hA
  rw [hHW]
  apply hin
  all_goals
    simp only [rectCorners, modify_roi_out, List.mem_cons, List.mem_singleton,
      List.not_mem_nil, or_false, hHW] at hq
    rcases hq with rfl | rfl | rfl | rfl <;> assumption

/-! ## The box of `modify_roi_in` -/

theorem adjust_aabb_isSome (p : ℚ × ℚ) (a : Aabb) : (adjust_aabb p a).isSome = true := by
  cases a with
  | none => rfl
  | some b => obtain ⟨a0, a1, a2, a3⟩ := b; rfl

/-- The corner loop of `modify_roi_in` always leaves a finite box: the `none`
branch of `modify_roi_in` is never taken. -/
theorem roiInBox_isSome (d : dt_iop_clipping_data_t) (roi_out : dt_iop_roi_t) :
    (roiInBox d roi_out).isSome = true := by
  have r4 : List.range 4 = [0, 1, 2, 3] := by decide
  unfold roiInBox
  simp only [r4, List.foldl]
  unfold roiInCorner
  exact adjust_aabb_isSome _ _

/-! ## Coverage of the requested input region -/

/-- C1, failing input: an 8 x 8 image with the full crop box rotated by the
5-12-13 angle (`cos = 5/13`, `sin = 12/13`).  The solved output extent is 6 x 6;
the requested region 1 x 2 at (2, 4), scale 1, lies inside it.  `modify_roi_in`
returns the input region 6 x 5 at (1, 2).  With that region as the delivered
tile, `process` samples the output pixel (0, 1) at (41/13, 55/13), cell (3, 4),
and `4 <= height - 2 = 3` fails: the pixel takes the black branch. -/
theorem coverage_failing_input :
    (modify_roi_out cos51213 sin51213 (commit_params rot51213_params blankData) fullRoi8).1 =
      ⟨0, 0, 6, 6, 1⟩ ∧
    (0 ≤ tileRoi.x ∧ 0 ≤ tileRoi.y ∧
      (tileRoi.x + tileRoi.width : ℚ) ≤ tileRoi.scale * rot51213_state.ciw ∧
      (tileRoi.y + tileRoi.height : ℚ) ≤ tileRoi.scale * rot51213_state.cih ∧
      1 ≤ tileRoi.width ∧ 1 ≤ tileRoi.height ∧ 0 < tileRoi.scale) ∧
    modify_roi_in rot51213_state tileRoi = ⟨1, 2, 6, 5, 1⟩ ∧
    sampleCoord rot51213_state (modify_roi_in rot51213_state tileRoi) tileRoi 0 1 =
      (41 / 13, 55 / 13) ∧
    toInt (sampleCoord rot51213_state (modify_roi_in rot51213_state tileRoi) tileRoi 0 1).1 = 3 ∧
    toInt (sampleCoord rot51213_state (modify_roi_in rot51213_state tileRoi) tileRoi 0 1).2 = 4 ∧
    ¬ inBounds (modify_roi_in rot51213_state tileRoi)
      (toInt (sampleCoord rot51213_state (modify_roi_in rot51213_state tileRoi) tileRoi 0 1).1)
      (toInt (sampleCoord rot51213_state (modify_roi_in rot51213_state tileRoi) tileRoi 0 1).2) ∧
    process rot51213_state (fun _ => 1) (fun _ => 1) (modify_roi_in rot51213_state tileRoi)
      tileRoi (3 * (tileRoi.width * 1 + 0) + 0) = 0 := by
  decide!

/-! ## The branches of the aspect enforcement -/

/-- C16: for every `aspect > 0`, every input region of positive width `W` and
height `H`, and every crop with `acw = cw - cx > 0` and `ach = ch - cy > 0`, the
crop fractions `(acw', ach')` after aspect enforcement satisfy
`(acw' * W) / (ach' * H) = aspect`. -/
theorem aspect_ratio_attained (d : dt_iop_clipping_data_t) (W H : Int)
    (ha : 0 < d.aspect) (hW : 0 < W) (hH : 0 < H)
    (hacw : 0 < d.cw - d.cx) (hach : 0 < d.ch - d.cy) :
    (aspectCrop d W H).1 * W / ((aspectCrop d W H).2 * H) = d.aspect := by
  have hW' : (0 : ℚ) < W := by exact_mod_cast hW
  have hH' : (0 : ℚ) < H := by exact_mod_cast hH
  rcases aspectCrop_constrained d W H ha hW hH with ⟨_, he⟩ | ⟨_, he⟩
  · rw [he]
    simp only
    field_simp
    ring
  · rw [he]
    simp only
    field_simp
    ring

/-- C16, witness: a 100 x 100 input, crop `[0,0,1,0.5]`, forced aspect 1: the
width fraction shrinks to 0.5 and the ratio is 1. -/
theorem aspect_ratio_attained_witness :
    aspectCrop (commit_params ⟨0, 0, 0, 1, 1 / 2, 1⟩ blankData) 100 100 = (1 / 2, 1 / 2) ∧
    (aspectCrop (commit_params ⟨0, 0, 0, 1, 1 / 2, 1⟩ blankData) 100 100).1 * (100 : Int) /
      ((aspectCrop (commit_params ⟨0, 0, 0, 1, 1 / 2, 1⟩ blankData) 100 100).2 * (100 : Int)) =
      (commit_params ⟨0, 0, 0, 1, 1 / 2, 1⟩ blankData).aspect :=
  ⟨by decide!, aspect_ratio_attained (commit_params ⟨0, 0, 0, 1, 1 / 2, 1⟩ blankData) 100 100
    (by decide!) (by decide) (by decide) (by decide!) (by decide!)⟩

/-! ## The pixel march and the direct transform -/

theorem writePixel_of_ge (buf : Int → ℚ) (out : Int) (v : Int → ℚ) (idx : Int)
    (h : out + 3 ≤ idx) : writePixel buf out v idx = buf idx := by
  unfold writePixel
  rw [Function.update_noteq (by omega), Function.update_noteq (by omega),
    Function.update_noteq (by omega)]

theorem colLoop_frame_hi (inp : Int → ℚ) (roi_in : dt_iop_roi_t) (dx : ℚ × ℚ) :
    ∀ (n : Nat) (pi : ℚ × ℚ) (out : Int) (buf : Int → ℚ) (idx : Int), out + 3 * n ≤ idx →
      colLoop inp roi_in dx n pi out buf idx = buf idx := by
  intro n
  induction n with
  | zero => intro pi out buf idx _; rfl
  | succ n ih =>
    intro pi out buf idx h
    rw [colLoop, ih _ _ _ _ (by push_cast at h ⊢; omega),
      writePixel_of_ge _ _ _ _ (by push_cast at h; omega)]

theorem marchCoord_eq (p0 dx dy : ℚ × ℚ) (j : Int) (i : Nat) :
    marchCoord p0 dx dy j i = (p0.1 + j * dy.1 + i * dx.1, p0.2 + j * dy.2 + i * dx.2) := by
  induction i with
  | zero => simp [marchCoord]
  | succ n ih =>
    rw [marchCoord, ih]
    ext <;> (push_cast; ring)

/-- A row other than `j` leaves the elements of the row `j` as they are. -/
theorem procRow_frame (inp : Int → ℚ) (roi_in roi_out : dt_iop_roi_t) (p0 dx dy : ℚ × ℚ)
    (r j i c : Int) (buf : Int → ℚ) (hr : r ≠ j) (hi0 : 0 ≤ i) (hi : i < roi_out.width)
    (hc0 : 0 ≤ c) (hc : c < 3) :
    procRow inp roi_in roi_out p0 dx dy r buf (3 * roi_out.width * j + 3 * i + c) =
      buf (3 * roi_out.width * j + 3 * i + c) := by
  unfold procRow
  have hw : 0 < roi_out.width := by omega
  rcases lt_or_gt_of_ne hr with h | h
  · apply colLoop_frame_hi
    rw [Int.toNat_of_nonneg (le_of_lt hw)]
    have h1 : r + 1 ≤ j := h
    nlinarith
  · apply colLoop_frame
    have h1 : j + 1 ≤ r := h
    nlinarith

theorem rowsLoop_frame (inp : Int → ℚ) (roi_in roi_out : dt_iop_roi_t) (p0 dx dy : ℚ × ℚ)
    (j i c : Int) (hi0 : 0 ≤ i) (hi : i < roi_out.width) (hc0 : 0 ≤ c) (hc : c < 3) :
    ∀ (rows : List Int) (buf : Int → ℚ), j ∉ rows →
      rowsLoop inp roi_in roi_out p0 dx dy rows buf (3 * roi_out.width * j + 3 * i + c) =
        buf (3 * roi_out.width * j + 3 * i + c) := by
  intro rows
  induction rows with
  | nil => intro buf _; rfl
  | cons r rs ih =>
    intro buf hj
    rw [List.mem_cons, not_or] at hj
    rw [rowsLoop, ih _ hj.2,
      procRow_frame inp roi_in roi_out p0 dx dy r j i c buf (Ne.symm hj.1) hi0 hi hc0 hc]

/-- In whatever order the rows are taken, the row `j` ends up holding the values
sampled at `p0 + j*dy + i*dx`. -/
theorem rowsLoop_val (inp : Int → ℚ) (roi_in roi_out : dt_iop_roi_t) (p0 dx dy : ℚ × ℚ)
    (j : Int) (i : Nat) (c : Int) (hi : (i : Int) < roi_out.width) (hc0 : 0 ≤ c) (hc : c < 3) :
    ∀ (rows : List Int) (buf : Int → ℚ), j ∈ rows →
      rowsLoop inp roi_in roi_out p0 dx dy rows buf (3 * roi_out.width * j + 3 * i + c) =
        pixelValue inp roi_in (p0.1 + j * dy.1 + i * dx.1, p0.2 + j * dy.2 + i * dx.2) c := by
  intro rows
  induction rows with
  | nil => intro buf h; exact absurd h (List.not_mem_nil _)
  | cons r rs ih =>
    intro buf hj
    rw [rowsLoop]
    by_cases hmem : j ∈ rs
    · exact ih _ hmem
    · have hrj : j = r := by
        rcases List.mem_cons.mp hj with h | h
        · exact h
        · exact absurd h hmem
      subst hrj
      rw [rowsLoop_frame inp roi_in roi_out p0 dx dy j i c (by omega) hi hc0 hc rs _ hmem]
      unfold procRow
      rw [colLoop_val _ _ _ _ _ _ _ i c (by omega) hc0 hc]

theorem sampleCoord_eq_directTransform (d : dt_iop_clipping_data_t)
    (roi_in roi_out : dt_iop_roi_t) (i j : Int) :
    sampleCoord d roi_in roi_out i j = directTransform d roi_in roi_out i j := by
  rw [sampleCoord_eq_transformPoint]
  rfl

/-- C15: for every state, input region, output region and every output pixel
`0 <= i < roi_out.width`, `0 <= j < roi_out.height`, the coordinate `pi` at
which `process` samples the pixel `(i, j)` (the row start `p0 + j*dy` advanced
`i` times by `dx`) equals `p0 + i*dx + j*dy` and equals the direct inverse
mapping `T(i,j)` of that pixel; the value stored for the pixel is the one
sampled there, by `process` and by the row loop taken over the rows in any
order. -/
theorem marching_equals_transform (d : dt_iop_clipping_data_t) (inp o : Int → ℚ)
    (roi_in roi_out : dt_iop_roi_t) (i j : Nat) (c : Int) (rows : List Int)
    (hi : (i : Int) < roi_out.width) (hj : (j : Int) < roi_out.height)
    (hc0 : 0 ≤ c) (hc : c < 3) (hrows : (j : Int) ∈ rows) :
    marchCoord (procP0 d roi_in roi_out) (procDx d roi_in roi_out) (procDy d roi_in roi_out)
        j i =
      ((procP0 d roi_in roi_out).1 + i * (procDx d roi_in roi_out).1 +
          j * (procDy d roi_in roi_out).1,
        (procP0 d roi_in roi_out).2 + i * (procDx d roi_in roi_out).2 +
          j * (procDy d roi_in roi_out).2) ∧
    marchCoord (procP0 d roi_in roi_out) (procDx d roi_in roi_out) (procDy d roi_in roi_out)
        j i = directTransform d roi_in roi_out i j ∧
    process d inp o roi_in roi_out (3 * (roi_out.width * j + i) + c) =
      pixelValue inp roi_in (marchCoord (procP0 d roi_in roi_out) (procDx d roi_in roi_out)
        (procDy d roi_in roi_out) j i) c ∧
    processIn d inp o roi_in roi_out rows (3 * (roi_out.width * j + i) + c) =
      pixelValue inp roi_in (marchCoord (procP0 d roi_in roi_out) (procDx d roi_in roi_out)
        (procDy d roi_in roi_out) j i) c := by
  have hm := marchCoord_eq (procP0 d roi_in roi_out) (procDx d roi_in roi_out)
    (procDy d roi_in roi_out) j i
  have hs : marchCoord (procP0 d roi_in roi_out) (procDx d roi_in roi_out)
      (procDy d roi_in roi_out) j i = sampleCoord d roi_in roi_out i j := by
    rw [hm]; rfl
  refine ⟨?_, ?_, ?_, ?_⟩
  · rw [hm]
    ext <;> (push_cast; ring)
  · rw [hs, sampleCoord_eq_directTransform]
  · rw [hs]
    exact process_pixel d inp o roi_in roi_out i j c (by omega) hi (by omega) hj hc0 hc
  · rw [hm]
    have e : 3 * (roi_out.width * (j : Int) + (i : Int)) + c =
        3 * roi_out.width * j + 3 * i + c := by ring
    unfold processIn
    rw [e]
    exact rowsLoop_val inp roi_in roi_out _ _ _ j i c hi hc0 hc rows o hrows

/-- C15, witness: the rotation by 53.13 degrees of an 8 x 8 image whose element
`n` holds `n`, the whole 5 x 5 output, pixel (2, 1), the rows taken in the order
4, 1, 3, 0, 2. -/
theorem marching_equals_transform_witness :
    marchCoord (procP0 rot345_state fullRoi8 cropRoi5) (procDx rot345_state fullRoi8 cropRoi5)
        (procDy rot345_state fullRoi8 cropRoi5) (1 : Nat) 2 =
      directTransform rot345_state fullRoi8 cropRoi5 (2 : Nat) (1 : Nat) ∧
    processIn rot345_state (fun n => n) (fun _ => 0) fullRoi8 cropRoi5 [4, 1, 3, 0, 2]
        (3 * (cropRoi5.width * (1 : Nat) + (2 : Nat)) + 0) =
      pixelValue (fun n => n) fullRoi8
        (marchCoord (procP0 rot345_state fullRoi8 cropRoi5)
          (procDx rot345_state fullRoi8 cropRoi5) (procDy rot345_state fullRoi8 cropRoi5)
          (1 : Nat) 2) 0 :=
  have h := marching_equals_transform rot345_state (fun n => n) (fun _ => 0) fullRoi8 cropRoi5
    2 1 0 [4, 1, 3, 0, 2] (by decide) (by decide) (by decide) (by decide) (by decide)
  ⟨h.2.1, h.2.2.2⟩

/-- The row loop of `process` is the row loop over the rows `j, j+1, ...` in
increasing order. -/
theorem rowLoop_eq_rowsLoop (inp : Int → ℚ) (roi_in roi_out : dt_iop_roi_t)
    (p0 dx dy : ℚ × ℚ) :
    ∀ (n : Nat) (j : Int) (buf : Int → ℚ),
      rowLoop inp roi_in roi_out p0 dx dy n j buf =
        rowsLoop inp roi_in roi_out p0 dx dy ((List.range n).map (fun k : Nat => j + k)) buf := by
  intro n
  induction n with
  | zero => intro j buf; rfl
  | succ n ih =>
    intro j buf
    have e : (List.range (n + 1)).map (fun k : Nat => j + (k : Int)) =
        j :: (List.range n).map (fun k : Nat => (j + 1) + (k : Int)) := by
      rw [List.range_succ_eq_map, List.map_cons, List.map_map]
      congr 1
      · simp
      · apply List.map_congr_left
        intro k _
        simp only [Function.comp_apply]
        push_cast
        ring
    rw [rowLoop, e, rowsLoop, ih]
    rfl

theorem process_eq_processIn (d : dt_iop_clipping_data_t) (inp o : Int → ℚ)
    (roi_in roi_out : dt_iop_roi_t) :
    process d inp o roi_in roi_out =
      processIn d inp o roi_in roi_out
        ((List.range roi_out.height.toNat).map (fun k : Nat => (0 : Int) + k)) := by
  unfold process processIn
  exact rowLoop_eq_rowsLoop _ _ _ _ _ _ _ _ _

/-! ## `cropscale` is the largest admissible factor -/

theorem cropscaleOf_eq_centredBox (rt : Mat2) (w h : Int) :
    cropscaleOf rt w h =
      cropCorner rt (centredBox w h) (cropCorner rt (centredBox w h)
        (cropCorner rt (centredBox w h) (cropCorner rt (centredBox w h) 1 0) 1) 2) 3 :=
  cropscaleOf_unfold rt w h

/-- A factor not above the result of one step keeps the scaled coordinate
within the half extent `Hh` of the axis. -/
theorem cropStep_inside (aabb : Nat → ℚ) (k : Nat) (ok cs r Hh : ℚ) (hH : 1 / 1000 ≤ Hh)
    (hlo : aabb (0 + k) = -Hh) (hhi : aabb (2 + k) = Hh) (hcs : 0 < cs) (hcs1 : cs ≤ 1)
    (hr0 : 0 ≤ r) (hr : r ≤ cropStep aabb k ok cs) : -Hh ≤ r * ok ∧ r * ok ≤ Hh := by
  have h1 := cropStep_mul_abs_le aabb k ok cs Hh hH hlo hhi hcs hcs1
  have h2 : r * |ok| ≤ Hh := le_trans (mul_le_mul_of_nonneg_right hr (abs_nonneg _)) h1
  have h3 : |r * ok| ≤ Hh := by rw [abs_mul, abs_of_nonneg hr0]; exact h2
  exact abs_le.mp h3

/-- A factor above the result of one step and not above 1 is above the factor
before the step, or pushes the scaled coordinate out of the axis. -/
theorem cropStep_maximal (aabb : Nat → ℚ) (k : Nat) (ok cs t Hh : ℚ)
    (hlo : aabb (0 + k) = -Hh) (hhi : aabb (2 + k) = Hh)
    (ht : cropStep aabb k ok cs < t) : cs < t ∨ t * ok < -Hh ∨ Hh < t * ok := by
  unfold cropStep at ht
  by_cases h1 : |ok| > 1 / 1000
  · rw [if_pos h1] at ht
    rcases min_lt_iff.mp ht with h | h
    · exact Or.inl h
    · right
      by_cases h2 : ok > 0
      · rw [if_pos h2, hhi, div_lt_iff₀ h2] at h
        exact Or.inr h
      · have h3 : ok < 0 := by
          rcases lt_trichotomy ok 0 with h' | h' | h'
          · exact h'
          · rw [h', abs_zero] at h1; norm_num at h1
          · exact absurd h' h2
        rw [if_neg h2, hlo, div_lt_iff_of_neg h3] at h
        exact Or.inl h
  · rw [if_neg h1] at ht
    exact Or.inl ht

theorem centredBox_entries (W H : Int) :
    centredBox W H (0 + 0) = -(1 / 2 * (W : ℚ)) ∧ centredBox W H (2 + 0) = 1 / 2 * (W : ℚ) ∧
    centredBox W H (0 + 1) = -(1 / 2 * (H : ℚ)) ∧ centredBox W H (2 + 1) = 1 / 2 * (H : ℚ) := by
  simp only [centredBox, arr4]
  refine ⟨by ring, trivial, by ring, trivial⟩

theorem centredBox_signs (W H : Int) (hW : 1 ≤ W) (hH : 1 ≤ H) :
    centredBox W H 0 < 0 ∧ centredBox W H 1 < 0 ∧ 0 < centredBox W H 2 ∧
    0 < centredBox W H 3 := by
  have hW' : (1 : ℚ) ≤ W := by exact_mod_cast hW
  have hH' : (1 : ℚ) ≤ H := by exact_mod_cast hH
  simp only [centredBox, arr4]
  refine ⟨by linarith, by linarith, by linarith, by linarith⟩

/-- A factor between 0 and the result of the loop body for the corner `c` keeps
the rotated corner, scaled by it, inside the centred box. -/
theorem cropCorner_inside (rt : Mat2) (W H : Int) (hW : 1 ≤ W) (hH : 1 ≤ H) (cs r : ℚ)
    (c : Nat) (hcs : 0 < cs) (hcs1 : cs ≤ 1) (hr0 : 0 ≤ r)
    (hr : r ≤ cropCorner rt (centredBox W H) cs c) :
    insideBox (centredBox W H)
      (r * (mul_mat_vec_2 rt (get_corner (centredBox W H) c)).1,
       r * (mul_mat_vec_2 rt (get_corner (centredBox W H) c)).2) := by
  have hW' : (1 : ℚ) ≤ W := by exact_mod_cast hW
  have hH' : (1 : ℚ) ≤ H := by exact_mod_cast hH
  obtain ⟨l0, u0, l1, u1⟩ := centredBox_entries W H
  obtain ⟨s0, s1, s2, s3⟩ := centredBox_signs W H hW hH
  unfold cropCorner at hr
  simp only at hr
  have hin_pos := cropStep_pos (centredBox W H) 0
    (mul_mat_vec_2 rt (get_corner (centredBox W H) c)).1 cs s0 s2 hcs
  have hin_le : cropStep (centredBox W H) 0
      (mul_mat_vec_2 rt (get_corner (centredBox W H) c)).1 cs ≤ 1 :=
    le_trans (cropStep_le _ _ _ _) hcs1
  obtain ⟨x1, x2⟩ := cropStep_inside (centredBox W H) 0 _ cs r (1 / 2 * (W : ℚ)) (by linarith)
    l0 u0 hcs hcs1 hr0 (le_trans hr (cropStep_le _ _ _ _))
  obtain ⟨y1, y2⟩ := cropStep_inside (centredBox W H) 1 _ _ r (1 / 2 * (H : ℚ)) (by linarith)
    l1 u1 hin_pos hin_le hr0 hr
  unfold insideBox
  simp only [zero_add] at l0 l1
  have u0' : centredBox W H 2 = 1 / 2 * (W : ℚ) := u0
  have u1' : centredBox W H 3 = 1 / 2 * (H : ℚ) := u1
  rw [l0, l1, u0', u1']
  exact ⟨x1, x2, y1, y2⟩

/-- A factor above the result of the loop body for the corner `c` is above the
factor before it, or takes the rotated corner out of the centred box. -/
theorem cropCorner_maximal (rt : Mat2) (W H : Int) (cs t : ℚ) (c : Nat)
    (ht : cropCorner rt (centredBox W H) cs c < t) :
    cs < t ∨ ¬ insideBox (centredBox W H)
      (t * (mul_mat_vec_2 rt (get_corner (centredBox W H) c)).1,
       t * (mul_mat_vec_2 rt (get_corner (centredBox W H) c)).2) := by
  obtain ⟨l0, u0, l1, u1⟩ := centredBox_entries W H
  unfold cropCorner at ht
  simp only at ht
  have u0' : centredBox W H 2 = 1 / 2 * (W : ℚ) := u0
  have u1' : centredBox W H 3 = 1 / 2 * (H : ℚ) := u1
  have l0' : centredBox W H 0 = -(1 / 2 * (W : ℚ)) := l0
  have l1' : centredBox W H 1 = -(1 / 2 * (H : ℚ)) := l1
  rcases cropStep_maximal (centredBox W H) 1 _ _ t (1 / 2 * (H : ℚ)) l1 u1 ht with h | h | h
  · rcases cropStep_maximal (centredBox W H) 0 _ _ t (1 / 2 * (W : ℚ)) l0 u0 h with g | g | g
    · exact Or.inl g
    · right
      rintro ⟨b1, _, _, _⟩
      simp only at b1
      rw [l0'] at b1
      linarith
    · right
      rintro ⟨_, b2, _, _⟩
      simp only at b2
      rw [u0'] at b2
      linarith
  · right
    rintro ⟨_, _, b3, _⟩
    simp only at b3
    rw [l1'] at b3
    linarith
  · right
    rintro ⟨_, _, _, b4⟩
    simp only at b4
    rw [u1'] at b4
    linarith

/-- C13: for every input region with `W >= 1`, `H >= 1` and every matrix `rt`
(in particular every rotation matrix `{c, -s, s, c}`), the value `cropscale`
computed by the corner loop of `modify_roi_out` satisfies `0 < cropscale <= 1`;
for each of the four corners `p` of the centred rectangle, `cropscale * rt*p`
lies inside that rectangle; no factor `t` with `cropscale < t <= 1` has this
property for all four corners; and `cropscale = 1` when the angle is 0. -/
theorem cropscale_largest (cosf sinf : ℚ → ℚ) (rt : Mat2) (W H : Int) (hW : 1 ≤ W)
    (hH : 1 ≤ H) :
    0 < cropscaleOf rt W H ∧ cropscaleOf rt W H ≤ 1 ∧
    (∀ i : Nat, i < 4 → insideBox (centredBox W H)
      (cropscaleOf rt W H * (mul_mat_vec_2 rt (get_corner (centredBox W H) i)).1,
       cropscaleOf rt W H * (mul_mat_vec_2 rt (get_corner (centredBox W H) i)).2)) ∧
    (∀ t : ℚ, cropscaleOf rt W H < t → t ≤ 1 → ∃ i : Nat, i < 4 ∧
      ¬ insideBox (centredBox W H)
        (t * (mul_mat_vec_2 rt (get_corner (centredBox W H) i)).1,
         t * (mul_mat_vec_2 rt (get_corner (centredBox W H) i)).2)) ∧
    cropscaleOf (rotMat cosf sinf 0) W H = 1 := by
  obtain ⟨s0, s1, s2, s3⟩ := centredBox_signs W H hW hH
  have hpos := cropscaleOf_pos rt W H (by omega) (by omega)
  have hle := cropscaleOf_le_one rt W H
  have hfin := cropscaleOf_eq_centredBox rt W H
  set ca := cropCorner rt (centredBox W H) 1 0 with hca
  set cb := cropCorner rt (centredBox W H) ca 1 with hcb
  set cc := cropCorner rt (centredBox W H) cb 2 with hcc
  have pa : 0 < ca := cropCorner_pos _ _ _ _ s0 s1 s2 s3 one_pos
  have pb : 0 < cb := cropCorner_pos _ _ _ _ s0 s1 s2 s3 pa
  have pc : 0 < cc := cropCorner_pos _ _ _ _ s0 s1 s2 s3 pb
  have la : ca ≤ 1 := cropCorner_le _ _ _ _
  have lb : cb ≤ ca := cropCorner_le _ _ _ _
  have lc : cc ≤ cb := cropCorner_le _ _ _ _
  have ld : cropscaleOf rt W H ≤ cc := by rw [hfin]; exact cropCorner_le _ _ _ _
  refine ⟨hpos, hle, ?_, ?_, ?_⟩
  · intro i hi
    have h4 : i = 0 ∨ i = 1 ∨ i = 2 ∨ i = 3 := by omega
    rcases h4 with rfl | rfl | rfl | rfl
    · exact cropCorner_inside rt W H hW hH 1 _ 0 one_pos le_rfl (le_of_lt hpos)
        (le_trans ld (le_trans lc lb))
    · exact cropCorner_inside rt W H hW hH ca _ 1 pa la (le_of_lt hpos) (le_trans ld lc)
    · exact cropCorner_inside rt W H hW hH cb _ 2 pb (le_trans lb la) (le_of_lt hpos) ld
    · exact cropCorner_inside rt W H hW hH cc _ 3 pc (le_trans lc (le_trans lb la))
        (le_of_lt hpos) (le_of_eq hfin)
  · intro t ht ht1
    rw [hfin] at ht
    rcases cropCorner_maximal rt W H cc t 3 ht with h3 | h3
    · rcases cropCorner_maximal rt W H cb t 2 h3 with h2 | h2
      · rcases cropCorner_maximal rt W H ca t 1 h2 with h1 | h1
        · rcases cropCorner_maximal rt W H 1 t 0 h1 with h0 | h0
          · exact absurd ht1 (not_le.mpr h0)
          · exact ⟨0, by decide, h0⟩
        · exact ⟨1, by decide, h1⟩
      · exact ⟨2, by decide, h2⟩
    · exact ⟨3, by decide, h3⟩
  · rw [rotMat_zero]
    exact cropscaleOf_identity W H (by omega) (by omega)

/-- C13, witness: the rotation matrix of the 3-4-5 angle on an 8 x 8 input,
where `cropscale = 5/7`. -/
theorem cropscale_largest_witness :
    cropscaleOf ⟨3 / 5, -(4 / 5), 4 / 5, 3 / 5⟩ 8 8 = 5 / 7 ∧
    (∀ t : ℚ, cropscaleOf ⟨3 / 5, -(4 / 5), 4 / 5, 3 / 5⟩ 8 8 < t → t ≤ 1 → ∃ i : Nat, i < 4 ∧
      ¬ insideBox (centredBox 8 8)
        (t * (mul_mat_vec_2 ⟨3 / 5, -(4 / 5), 4 / 5, 3 / 5⟩ (get_corner (centredBox 8 8) i)).1,
         t * (mul_mat_vec_2 ⟨3 / 5, -(4 / 5), 4 / 5, 3 / 5⟩
           (get_corner (centredBox 8 8) i)).2)) :=
  ⟨by decide!, (cropscale_largest cos345 sin345 ⟨3 / 5, -(4 / 5), 4 / 5, 3 / 5⟩ 8 8 (by decide)
    (by decide)).2.2.2.1⟩

/-! ## The region emitted by `modify_roi_in` -/

/-- For a coordinate with no component strictly between -1 and 0 the value
stored by the pixel loop is the one of the rule of the specification. -/
theorem pixelValue_eq_resampleRule (inp : Int → ℚ) (roi_in : dt_iop_roi_t) (pi : ℚ × ℚ)
    (c : Int) (h1 : pi.1 ≤ -1 ∨ 0 ≤ pi.1) (h2 : pi.2 ≤ -1 ∨ 0 ≤ pi.2) :
    pixelValue inp roi_in pi c = resampleRule inp roi_in pi c := by
  unfold pixelValue resampleRule inBounds
  simp only
  rcases h1 with h1 | h1
  · have hneg : ¬ (0 : ℚ) ≤ pi.1 := by linarith
    have t : toInt pi.1 < 0 := by
      unfold toInt
      rw [if_neg hneg]
      have : ⌈pi.1⌉ ≤ -1 := Int.ceil_le.mpr (by push_cast; exact h1)
      omega
    have f : ⌊pi.1⌋ < 0 := by
      have : ⌊pi.1⌋ ≤ -1 := Int.le_of_lt_add_one (Int.floor_lt.mpr (by push_cast; linarith))
      omega
    rw [if_neg (by omega), if_neg (by omega)]
  · have tx : toInt pi.1 = ⌊pi.1⌋ := by unfold toInt; rw [if_pos h1]
    rcases h2 with h2 | h2
    · have hneg : ¬ (0 : ℚ) ≤ pi.2 := by linarith
      have t : toInt pi.2 < 0 := by
        unfold toInt
        rw [if_neg hneg]
        have : ⌈pi.2⌉ ≤ -1 := Int.ceil_le.mpr (by push_cast; exact h2)
        omega
      have f : ⌊pi.2⌋ < 0 := by
        have : ⌊pi.2⌋ ≤ -1 := Int.le_of_lt_add_one (Int.floor_lt.mpr (by push_cast; linarith))
        omega
      rw [if_neg (by omega), if_neg (by omega)]
    · have ty : toInt pi.2 = ⌊pi.2⌋ := by unfold toInt; rw [if_pos h2]
      rw [tx, ty]
      by_cases hb : ⌊pi.1⌋ ≥ 0 ∧ ⌊pi.2⌋ ≥ 0 ∧ ⌊pi.1⌋ ≤ roi_in.width - 2 ∧
          ⌊pi.2⌋ ≤ roi_in.height - 2
      · rw [if_pos hb, if_pos (by omega)]
        ring
      · rw [if_neg hb, if_neg (by omega)]

/-- C11, failing input: the rotation by 53.13 degrees (`cos = 3/5`, `sin = 4/5`)
of an 8 x 8 image whose element `n` holds `n`, the full image as the delivered
tile and the whole 5 x 5 output extent as the requested region.  The output
pixel (0, 0) is sampled at `(-1/5, 23/5)`; `floor(-1/5) = -1`, so the
neighbourhood `[-1, 0] x [4, 5]` is not inside the tile and the rule of the
specification gives 0.  The cast `(int)(-1/5)` is 0, the cell (0, 4) passes the
bounds test and the pixel is written as the blend with `fi = -1/5`, 549/5. -/
theorem resample_rule_failing_input :
    sampleCoord rot345_state fullRoi8 cropRoi5 0 0 = (-1 / 5, 23 / 5) ∧
    ⌊(sampleCoord rot345_state fullRoi8 cropRoi5 0 0).1⌋ = -1 ∧
    toInt (sampleCoord rot345_state fullRoi8 cropRoi5 0 0).1 = 0 ∧
    toInt (sampleCoord rot345_state fullRoi8 cropRoi5 0 0).2 = 4 ∧
    inBounds fullRoi8 (toInt (sampleCoord rot345_state fullRoi8 cropRoi5 0 0).1)
      (toInt (sampleCoord rot345_state fullRoi8 cropRoi5 0 0).2) ∧
    resampleRule (fun n => n) fullRoi8 (sampleCoord rot345_state fullRoi8 cropRoi5 0 0) 0 = 0 ∧
    process rot345_state (fun n => n) (fun _ => 0) fullRoi8 cropRoi5
      (3 * (cropRoi5.width * 0 + 0) + 0) = 549 / 5 := by
  decide!

end Clipping
